import Mathlib

/-!
# Verification of the hd-organizer duplicate pipeline

A shallow embedding of the core of the `hd-organizer` repository:

* `hash_byte_dup_step2.py` — the duplicate classifier (byte-by-byte and
  SHA-256 hash comparison strategies, digest cache, grouping, and the
  JSON persistence step that derives `newest_index`, sorted paths and
  wasted-space figures);
* `delete_duplicates_step3.py` — the duplicate deleter (dry-run /
  confirmation / execute protocol over the persisted records);
* `recover_deleted_files_step4.py` — the recoverer (copies the newest
  copy back over the other paths, with search-string filtering).

Files on disk are modelled as byte lists; a read either yields the whole
content or fails with an I/O error (`Option`).  The filesystem seen by the
destructive operators is a list of existing file paths plus a list of
existing directories; paths listed in `denied` make removal/copying raise
a permission error, mirroring the `PermissionError` handlers in the
source.  Python strings are compared by code points, which coincides with
the character-list lexicographic comparison defined below; the string
helpers (`strip`/`lower`/substring/`os.path.dirname`) are reimplemented
over character lists so that every definition is executable.
-/

namespace HdOrg

/-! ### String primitives (Python code-point semantics, executable) -/

/-- Lexicographic strict comparison on character lists, by code point:
the order Python uses when comparing strings with `<` / `max` / `sorted`. -/
def lexLt : List Char → List Char → Bool
  | [], [] => false
  | [], _ :: _ => true
  | _ :: _, [] => false
  | a :: as, b :: bs => if a < b then true else if b < a then false else lexLt as bs

/-- Python `a < b` on strings. -/
def strLtB (a b : String) : Bool := lexLt a.data b.data

/-- Python `a <= b` on strings. -/
def strLeB (a b : String) : Bool := !(lexLt b.data a.data)

/-- One step of Python `max(...)`: keep the current value unless the next
element is strictly greater (so ties keep the first occurrence). -/
def pyMaxStep (a b : String) : String := if strLtB a b then b else a

/-- Python `max(...)` over a list of strings keeps the first maximal
element; on the empty list the guard in the source prevents the call, so
the value returned here for `[]` is irrelevant. -/
def pyMax : List String → String
  | [] => ""
  | d :: rest => rest.foldl pyMaxStep d

/-- One step of insertion sort under Python string `<=`. -/
def pyInsert (a : String) : List String → List String
  | [] => [a]
  | b :: l => if strLeB a b then a :: b :: l else b :: pyInsert a l

/-- Python `sorted(...)` on a list of strings (ascending code-point
lexicographic order). -/
def pySortStrings : List String → List String
  | [] => []
  | a :: l => pyInsert a (pySortStrings l)

/-- Python `str.lower()` (ASCII case folding suffices for the strings the
pipeline compares). -/
def pyLowerStr (s : String) : String := String.mk (s.data.map Char.toLower)

/-- Whitespace stripped by Python `str.strip()`. -/
def isPySpaceChar (c : Char) : Bool :=
  c = ' ' || c = '\t' || c = '\n' || c = '\r' || c = '\x0b' || c = '\x0c'

/-- Python `str.strip()`. -/
def pyStrip (s : String) : String :=
  String.mk (((s.data.dropWhile isPySpaceChar).reverse.dropWhile isPySpaceChar).reverse)

/-- `response.strip().lower() == "yes"`: the confirmation gate used by
both destructive operators. -/
def pyAffirmative (response : String) : Bool := pyLowerStr (pyStrip response) == "yes"

/-- Does the character list start with the given pattern? -/
def startsWithList : List Char → List Char → Bool
  | [], _ => true
  | _ :: _, [] => false
  | a :: as, b :: bs => a = b && startsWithList as bs

/-- Substring search over character lists. -/
def containsAux (sub : List Char) : List Char → Bool
  | [] => sub.isEmpty
  | c :: rest => startsWithList sub (c :: rest) || containsAux sub rest

/-- Python `sub in s` on strings. -/
def strContainsSub (s sub : String) : Bool := containsAux sub.data s.data

/-- Split a character list on `'/'` (POSIX path separator), mirroring the
splitting underlying `os.path.dirname`. -/
def splitSlash : List Char → List (List Char)
  | [] => [[]]
  | c :: rest =>
    match splitSlash rest with
    | [] => [[]]
    | g :: gs => if c = '/' then [] :: g :: gs else (c :: g) :: gs

/-- Join character-list segments with `'/'`. -/
def joinSlash : List (List Char) → List Char
  | [] => []
  | [g] => g
  | g :: gs => g ++ '/' :: joinSlash gs

/-- `os.path.dirname` for POSIX paths: everything before the last `'/'`,
or `""` when the path has no separator. -/
def dirname (p : String) : String :=
  let parts := splitSlash p.data
  if parts.length ≤ 1 then "" else String.mk (joinSlash parts.dropLast)

/-! ### Step 2 — `DuplicateFinder`: file model and byte comparison -/

/-- The result of reading a file: the full byte content, or `none` when an
`OSError`/`PermissionError` occurs while opening or reading it. -/
abbrev FileContent := Option (List Nat)

/-- The chunked lock-step loop of `compare_files_byte_by_byte`: read a
chunk from each file, report inequality on the first mismatch, equality
when EOF is reached on both simultaneously. -/
def cmpChunks (chunkSize : Nat) (c1 c2 : List Nat) : Bool :=
  if c1.take chunkSize ≠ c2.take chunkSize then false
  else if h : c1.take chunkSize = [] then true
  else cmpChunks chunkSize (c1.drop chunkSize) (c2.drop chunkSize)
termination_by c1.length
decreasing_by
  have hk : chunkSize ≠ 0 := by intro h0; subst h0; simp at h
  have hc : c1 ≠ [] := by intro h0; subst h0; simp at h
  have hpos : 0 < c1.length := List.length_pos.mpr hc
  simp only [List.length_drop]
  omega

/-- `DuplicateFinder.compare_files_byte_by_byte`: `False` when either file
cannot be read (the `except (OSError, PermissionError)` handler), otherwise
the chunked lock-step comparison of the two contents. -/
def compare_files_byte_by_byte (file1 file2 : FileContent) (chunkSize : Nat) : Bool :=
  match file1, file2 with
  | some c1, some c2 => cmpChunks chunkSize c1 c2
  | _, _ => false

/-! ### Step 2 — digests, the digest cache, and hash comparison -/

/-- The instance-level `hash_cache` dictionary: an association list from
path to the hexadecimal digest previously computed for it. -/
abbrev HashCache := List (String × String)

/-- `DuplicateFinder.compute_file_hash`.  `hashFn` abstracts the SHA-256
hexadecimal digest of a byte content (the chunked `hasher.update` loop
streams exactly the full content into the hasher); `disk` maps a path to
the outcome of reading it.  A cached digest is returned without touching
the disk; a successful read caches and returns the digest; a failed read
returns `""` and caches nothing. -/
def compute_file_hash (hashFn : List Nat → String) (disk : String → FileContent)
    (cache : HashCache) (filepath : String) : String × HashCache :=
  match cache.lookup filepath with
  | some h => (h, cache)
  | none =>
    match disk filepath with
    | some content =>
      let hashValue := hashFn content
      (hashValue, cache ++ [(filepath, hashValue)])
    | none => ("", cache)

/-- The digest a run obtains for a path when the path is not yet cached:
the digest of its content, or `""` on a read failure. -/
def runHash (hashFn : List Nat → String) (disk : String → FileContent) (q : String) : String :=
  match disk q with
  | some content => hashFn content
  | none => ""

/-- A cache state is consistent with the disk when every cached digest is
the digest of the corresponding file's current content.  This holds for
every cache reachable in a run: `hash_cache` starts empty and is only
filled by successful `compute_file_hash` calls against the same disk. -/
def CacheOk (hashFn : List Nat → String) (disk : String → FileContent) (cache : HashCache) : Prop :=
  ∀ q v, cache.lookup q = some v → ∃ content, disk q = some content ∧ hashFn content = v

/-- `DuplicateFinder.compare_files_by_hash`: compute both digests (through
the cache), return `False` if either is empty, else compare them.  Returns
the updated cache alongside the boolean, mirroring the mutated instance
state. -/
def compare_files_by_hash (hashFn : List Nat → String) (disk : String → FileContent)
    (cache : HashCache) (file1 file2 : String) : Bool × HashCache :=
  (if (compute_file_hash hashFn disk cache file1).1 = "" ∨
      (compute_file_hash hashFn disk (compute_file_hash hashFn disk cache file1).2 file2).1 = ""
   then false
   else (compute_file_hash hashFn disk cache file1).1 ==
     (compute_file_hash hashFn disk (compute_file_hash hashFn disk cache file1).2 file2).1,
   (compute_file_hash hashFn disk (compute_file_hash hashFn disk cache file1).2 file2).2)

/-! ### Step 2 — grouping identical files -/

/-- Append a path to the bucket of its digest, creating the bucket at the
end when the digest is new — exactly how insertion into the
`hash_groups` dict behaves (Python dicts preserve insertion order). -/
def insertBucket (h p : String) : List (String × List String) → List (String × List String)
  | [] => [(h, [p])]
  | (k, ps) :: rest =>
    if k = h then (k, ps ++ [p]) :: rest else (k, ps) :: insertBucket h p rest

/-- The loop of `_group_identical_files_hash`: hash every path through the
cache, skipping paths whose digest is empty. -/
def hashGroupsLoop (hashFn : List Nat → String) (disk : String → FileContent) :
    List String → List (String × List String) → HashCache →
    List (String × List String) × HashCache
  | [], buckets, cache => (buckets, cache)
  | p :: rest, buckets, cache =>
    if (compute_file_hash hashFn disk cache p).1 = "" then
      hashGroupsLoop hashFn disk rest buckets (compute_file_hash hashFn disk cache p).2
    else
      hashGroupsLoop hashFn disk rest
        (insertBucket (compute_file_hash hashFn disk cache p).1 p buckets)
        (compute_file_hash hashFn disk cache p).2

/-- `DuplicateFinder._group_identical_files_hash`: bucket the paths by
digest and keep only buckets with more than one file.  Returns the groups
together with the updated cache. -/
def _group_identical_files_hash (hashFn : List Nat → String) (disk : String → FileContent)
    (cache : HashCache) (paths : List String) : List (List String) × HashCache :=
  (((hashGroupsLoop hashFn disk paths [] cache).1.map Prod.snd).filter (fun g => 1 < g.length),
   (hashGroupsLoop hashFn disk paths [] cache).2)

/-- The loop of `_group_identical_files_byte` over the `remaining` set:
take a file, collect everything that compares equal to it into one group,
drop that group from `remaining`, repeat.  `cmp` is the comparison oracle
(`compare_files_byte_by_byte` on the run's disk). -/
def groupByteLoop (cmp : String → String → Bool) : List String → List (List String)
  | [] => []
  | current :: rest =>
    (if 1 < (current :: rest.filter (fun other => cmp current other)).length
     then [current :: rest.filter (fun other => cmp current other)] else []) ++
    groupByteLoop cmp (rest.filter (fun other => !cmp current other))
termination_by l => l.length
decreasing_by
  simp only [List.length_cons]
  exact Nat.lt_succ_of_le (List.length_filter_le _ _)

/-- `DuplicateFinder._group_identical_files_byte`.  `set(paths)` iterates
each distinct path once in an unspecified order; `List.dedup` fixes one
such order (the properties proved below do not depend on it). -/
def _group_identical_files_byte (disk : String → FileContent) (chunkSize : Nat)
    (paths : List String) : List (List String) :=
  groupByteLoop (fun f1 f2 => compare_files_byte_by_byte (disk f1) (disk f2) chunkSize)
    paths.dedup

/-- Groups are pairwise disjoint: no path belongs to two of them. -/
def PairwiseDisjoint (groups : List (List String)) : Prop :=
  groups.Pairwise (fun g1 g2 => ∀ p, p ∈ g1 → p ∉ g2)

/-- The invariant of the `hash_groups` dictionary under the digest
function of the run: keys are distinct, no key is the empty digest, and
every path in a bucket has the bucket's key as its digest. -/
def HashBucketsInv (f : String → String) (buckets : List (String × List String)) : Prop :=
  (buckets.map Prod.fst).Nodup ∧
  ∀ b ∈ buckets, b.1 ≠ "" ∧ ∀ q ∈ b.2, f q = b.1

/-- The residual computation in `main`: candidates of a key that landed in
no duplicate group become singleton difference entries.  When the key
produced no group at all it is absent from `true_dups` and every path
becomes a singleton. -/
def differencesFor (paths : List String) (groups : List (List String)) : List (List String) :=
  if groups.isEmpty then paths.map (fun p => [p])
  else (paths.filter (fun p => !((groups.flatMap id).contains p))).map (fun p => [p])

/-! ### Step 2 — persisted records (`save_results_to_json`) -/

/-- `newest_index = dates.index(max(dates)) if dates and any(dates) else 0`. -/
def get_newest_index (dates : List String) : Nat :=
  if !dates.isEmpty && dates.any (fun d => !(d == "")) then
    dates.indexOf (pyMax dates)
  else 0

/-- One entry of the persisted duplicates document. -/
structure DupRecord where
  filename : String
  extension : String
  size_bytes : Int
  group_id : Nat
  file_count : Nat
  paths : List String
  dates : List String
  newest_index : Nat
  wasted_space_bytes : Int
deriving DecidableEq

/-- One entry of the persisted differences document (same shape minus the
wasted-space field). -/
structure DiffRecord where
  filename : String
  extension : String
  size_bytes : Int
  group_id : Nat
  file_count : Nat
  paths : List String
  dates : List String
  newest_index : Nat
deriving DecidableEq

/-- Build one duplicates entry as `save_results_to_json` does: sort the
group, resolve the (possibly empty) modification date of each path through
`dateOf` (which models `get_file_date`, returning `""` on a stat failure),
derive `newest_index` and the wasted space. -/
def mkDupItem (fname ext : String) (size : Int) (gid : Nat)
    (dateOf : String → String) (group : List String) : DupRecord :=
  { filename := fname
    extension := ext
    size_bytes := size
    group_id := gid
    file_count := (pySortStrings group).length
    paths := pySortStrings group
    dates := (pySortStrings group).map dateOf
    newest_index := get_newest_index ((pySortStrings group).map dateOf)
    wasted_space_bytes := size * (((pySortStrings group).length : Int) - 1) }

/-- Build one differences entry (same derivation, no wasted space). -/
def mkDiffItem (fname ext : String) (size : Int) (gid : Nat)
    (dateOf : String → String) (group : List String) : DiffRecord :=
  { filename := fname
    extension := ext
    size_bytes := size
    group_id := gid
    file_count := (pySortStrings group).length
    paths := pySortStrings group
    dates := (pySortStrings group).map dateOf
    newest_index := get_newest_index ((pySortStrings group).map dateOf) }

/-- `enumerate(l, n)`. -/
def enumFrom (n : Nat) : List α → List (Nat × α)
  | [] => []
  | a :: l => (n, a) :: enumFrom (n + 1) l

/-- The duplicates-document body: for every key (already iterated in
sorted order by the source) and every group, one record, with `group_id`
counted from 1 within the key. -/
def buildDuplicatesData (dateOf : String → String)
    (trueDuplicates : List ((String × String × Int) × List (List String))) : List DupRecord :=
  trueDuplicates.flatMap (fun kg =>
    (enumFrom 1 kg.2).map (fun ig =>
      mkDupItem kg.1.1 kg.1.2.1 kg.1.2.2 ig.1 dateOf ig.2))

/-- The differences-document body. -/
def buildDifferencesData (dateOf : String → String)
    (differences : List ((String × String × Int) × List (List String))) : List DiffRecord :=
  differences.flatMap (fun kg =>
    (enumFrom 1 kg.2).map (fun ig =>
      mkDiffItem kg.1.1 kg.1.2.1 kg.1.2.2 ig.1 dateOf ig.2))

/-- The persisted duplicates document. -/
structure DuplicatesDoc where
  total_groups : Nat
  total_wasted_space_bytes : Int
  duplicates : List DupRecord
deriving DecidableEq

/-- The persisted differences document. -/
structure DifferencesDoc where
  total_groups : Nat
  differences : List DiffRecord
deriving DecidableEq

/-- The duplicates half of `save_results_to_json`. -/
def save_duplicates (dateOf : String → String)
    (trueDuplicates : List ((String × String × Int) × List (List String))) : DuplicatesDoc :=
  let data := buildDuplicatesData dateOf trueDuplicates
  { total_groups := data.length
    total_wasted_space_bytes := (data.map (fun r => r.wasted_space_bytes)).sum
    duplicates := data }

/-- The differences half of `save_results_to_json`. -/
def save_differences (dateOf : String → String)
    (differences : List ((String × String × Int) × List (List String))) : DifferencesDoc :=
  let data := buildDifferencesData dateOf differences
  { total_groups := data.length
    differences := data }

/-- The property claimed for `newest_index`: in range; when some timestamp
is non-empty it points at the first occurrence of the lexicographically
maximal timestamp; when all timestamps are empty it is 0. -/
def NewestIndexSpec (dates : List String) (i : Nat) : Prop :=
  i < dates.length ∧
  ((∃ d ∈ dates, d ≠ "") →
    ∀ h : i < dates.length,
      (∀ d ∈ dates, strLeB d (dates.get ⟨i, h⟩) = true) ∧
      (∀ j, ∀ hj : j < dates.length, j < i → dates.get ⟨j, hj⟩ ≠ dates.get ⟨i, h⟩)) ∧
  ((∀ d ∈ dates, d = "") → i = 0)

/-! ### Steps 3 & 4 — filesystem model and operation log -/

/-- The filesystem seen by the destructive operators: existing regular
files, existing directories, and the paths on which `os.remove` /
`shutil.copy2` raise `PermissionError`. -/
structure FS where
  files : List String
  dirs : List String
  denied : List String
deriving DecidableEq

/-- `os.path.exists` on a file path. -/
def FS.pathExists (fs : FS) (p : String) : Bool := fs.files.contains p

/-- `os.path.exists` on a directory path. -/
def FS.dirExists (fs : FS) (d : String) : Bool := fs.dirs.contains d

/-- `os.remove`. -/
def FS.removeFile (fs : FS) (p : String) : FS :=
  { fs with files := fs.files.filter (fun q => q ≠ p) }

/-- `shutil.copy2 source p`: afterwards `p` exists (contents are not
tracked by this model). -/
def FS.copyTo (fs : FS) (p : String) : FS :=
  { fs with files := if fs.files.contains p then fs.files else fs.files ++ [p] }

/-- `os.makedirs(d, exist_ok=True)`. -/
def FS.mkdir (fs : FS) (d : String) : FS := { fs with dirs := fs.dirs ++ [d] }

/-- One timestamped line of the operation log, one constructor per `_log`
call site of the two operators (timestamps and the purely decorative `=`
separators' text are not tracked). -/
inductive LogEntry where
  | sep
  | previewDeleteTitle
  | groupHeader (idx : Nat) (fullFilename : String) (size : Int)
  | keepingNewest (path : String)
  | modifiedDate (date : String)
  | deletingCount (n : Nat)
  | previewDeleteItem (path : String)
  | summaryWouldDelete (n : Nat)
  | spaceToBeFreed (n : Int)
  | dryRunNotice
  | cancelledByUser
  | executingTitle
  | processingGroup (idx : Nat) (fullFilename : String)
  | keeping (path : String)
  | skipNotFound (path : String)
  | deletedPath (path : String)
  | errorPermission (path : String)
  | summaryTitle
  | filesDeleted (n : Nat)
  | spaceFreed (n : Int)
  | failedDeletions (n : Nat)
  | failedItem (path : String) (err : String)
  | previewRecoverTitle
  | noMatchingGroups
  | sourceNewest (path : String)
  | recoveringCount (n : Nat)
  | previewRecoverItem (path : String)
  | originalDate (date : String)
  | summaryWouldRecover (n : Nat)
  | spaceToRestore (n : Int)
  | dryRunNoticeRecover
  | recoveryCancelled
  | executingRecoverTitle
  | recGroupHeader (idx : Nat) (fullFilename : String)
  | errorSourceMissing (path : String)
  | sourceLine (path : String)
  | mkdirLine (dir : String)
  | recoveredPath (path : String)
  | filesRecovered (n : Nat)
  | spaceRestored (n : Int)
  | failedRecoveries (n : Nat)
deriving DecidableEq

/-- `f"{filename}{ext_display}"` where `ext_display` is `f".{extension}"`
for a non-empty extension and `""` otherwise. -/
def fullFilename (fname ext : String) : String :=
  fname ++ (if ext ≠ "" then "." ++ ext else "")

/-! ### Step 3 — `DuplicateDeleter` -/

/-- Running totals and log of `preview_deletions` / `preview_recoveries`. -/
structure PreviewState where
  totalFiles : Nat
  totalSpace : Int
  log : List LogEntry
deriving DecidableEq

/-- The body of the `preview_deletions` loop for one group. -/
def previewGroup (s : PreviewState) (ig : Nat × DupRecord) : PreviewState :=
  let g := ig.2
  let filesToDelete :=
    ((enumFrom 0 g.paths).filter (fun ip => ip.1 ≠ g.newest_index)).map
      (fun ip => (ip.2, g.dates.getD ip.1 ""))
  let headerLog :=
    [LogEntry.groupHeader ig.1 (fullFilename g.filename g.extension) g.size_bytes,
     LogEntry.keepingNewest (g.paths.getD g.newest_index "")] ++
    (if g.newest_index < g.dates.length then
      [LogEntry.modifiedDate (g.dates.getD g.newest_index "")] else [])
  let deleteLog :=
    if filesToDelete.isEmpty then []
    else
      LogEntry.deletingCount filesToDelete.length ::
      filesToDelete.flatMap (fun pd =>
        LogEntry.previewDeleteItem pd.1 ::
        (if pd.2 ≠ "" then [LogEntry.modifiedDate pd.2] else []))
  { totalFiles := s.totalFiles + filesToDelete.length
    totalSpace := s.totalSpace + filesToDelete.length * g.size_bytes
    log := s.log ++ headerLog ++ deleteLog }

/-- `DuplicateDeleter.preview_deletions`: log every group's keeper and
would-be deletions, returning the running totals (the method's return
value) and the log it appended. -/
def preview_deletions (doc : List DupRecord) : PreviewState :=
  let s0 : PreviewState :=
    { totalFiles := 0, totalSpace := 0
      log := [LogEntry.sep, LogEntry.previewDeleteTitle, LogEntry.sep] }
  let s1 := (enumFrom 1 doc).foldl previewGroup s0
  { s1 with
    log := s1.log ++
      [LogEntry.sep, LogEntry.summaryWouldDelete s1.totalFiles,
       LogEntry.spaceToBeFreed s1.totalSpace, LogEntry.sep] }

/-- The paths named by `previewDeleteItem` lines of a log: the files the
preview describes as "would be deleted". -/
def listedDeletions (log : List LogEntry) : List String :=
  log.filterMap (fun e =>
    match e with
    | LogEntry.previewDeleteItem p => some p
    | _ => none)

/-- The non-keeper paths of one record: every path at an index other than
`newest_index`. -/
def nonKeepers (g : DupRecord) : List String :=
  ((enumFrom 0 g.paths).filter (fun ip => ip.1 ≠ g.newest_index)).map (fun ip => ip.2)

/-- All non-keeper paths of a document, in processing order. -/
def nonKeepersList (doc : List DupRecord) : List String := doc.flatMap nonKeepers

/-- Mutable state of the `delete_duplicates` execution loop. -/
structure DelState where
  fs : FS
  deletedCount : Nat
  spaceFreed : Int
  deletedFiles : List String
  failed : List (String × String)
  log : List LogEntry
deriving DecidableEq

/-- The body of the inner deletion loop for one `(i, path)` pair: skip the
keeper index; skip (with a log line) a path that no longer exists; record
a failure when removal raises `PermissionError`; otherwise remove the file
and update the totals. -/
def deleteOnePath (size : Int) (newestIdx : Nat) (s : DelState) (ip : Nat × String) : DelState :=
  if ip.1 = newestIdx then s
  else if !s.fs.pathExists ip.2 then
    { s with log := s.log ++ [LogEntry.skipNotFound ip.2] }
  else if s.fs.denied.contains ip.2 then
    { s with failed := s.failed ++ [(ip.2, "Permission denied")]
             log := s.log ++ [LogEntry.errorPermission ip.2] }
  else
    { s with fs := s.fs.removeFile ip.2
             deletedCount := s.deletedCount + 1
             spaceFreed := s.spaceFreed + size
             deletedFiles := s.deletedFiles ++ [ip.2]
             log := s.log ++ [LogEntry.deletedPath ip.2] }

/-- The inner deletion loop over `enumerate(paths)`. -/
def deletePaths (size : Int) (newestIdx : Nat) : List (Nat × String) → DelState → DelState
  | [], s => s
  | ip :: rest, s => deletePaths size newestIdx rest (deleteOnePath size newestIdx s ip)

/-- Process one record of the execution loop: log the group header and the
keeper, then run the inner loop over the record's paths. -/
def deleteGroup (s : DelState) (ig : Nat × DupRecord) : DelState :=
  deletePaths ig.2.size_bytes ig.2.newest_index (enumFrom 0 ig.2.paths)
    { s with
      log := s.log ++
        [LogEntry.processingGroup ig.1 (fullFilename ig.2.filename ig.2.extension),
         LogEntry.keeping (ig.2.paths.getD ig.2.newest_index "")] }

/-- The execution loop over `enumerate(duplicates, 1)`. -/
def deleteGroups : List (Nat × DupRecord) → DelState → DelState
  | [], s => s
  | ig :: rest, s => deleteGroups rest (deleteGroup s ig)

/-- The executing phase of `delete_duplicates` (reached in execute mode
after the confirmation gate): process every record, then log the summary. -/
def executeDeletions (doc : List DupRecord) (fs : FS) : DelState :=
  let s0 : DelState :=
    { fs := fs, deletedCount := 0, spaceFreed := 0, deletedFiles := [], failed := []
      log := [LogEntry.sep, LogEntry.executingTitle, LogEntry.sep] }
  let s1 := deleteGroups (enumFrom 1 doc) s0
  { s1 with
    log := s1.log ++
      [LogEntry.sep, LogEntry.summaryTitle, LogEntry.filesDeleted s1.deletedCount,
       LogEntry.spaceFreed s1.spaceFreed] ++
      (if s1.failed.isEmpty then []
       else LogEntry.failedDeletions s1.failed.length ::
         s1.failed.map (fun pe => LogEntry.failedItem pe.1 pe.2)) ++
      [LogEntry.sep] }

/-- What a destructive run returns: the resulting filesystem, the
`(count, bytes, files)` triple the method returns, and the log lines the
method appended. -/
structure RunResult where
  fs : FS
  count : Nat
  space : Int
  files : List String
  log : List LogEntry
deriving DecidableEq

/-- `DuplicateDeleter.delete_duplicates`.  In dry-run mode: log the
notice, run the preview, mutate nothing.  Otherwise, with `confirm`, run
the preview and ask; any response other than (stripped, lowercased)
`"yes"` cancels with zero mutations.  Past the gate, the execution phase
runs on the filesystem as loaded. -/
def delete_duplicates (doc : List DupRecord) (dryRun confirm : Bool) (response : String)
    (fs : FS) : RunResult :=
  if dryRun then
    let pv := preview_deletions doc
    { fs := fs, count := pv.totalFiles, space := pv.totalSpace, files := []
      log := LogEntry.dryRunNotice :: pv.log }
  else if confirm && !pyAffirmative response then
    let pv := preview_deletions doc
    { fs := fs, count := 0, space := 0, files := []
      log := pv.log ++ [LogEntry.cancelledByUser] }
  else if confirm then
    let pv := preview_deletions doc
    let ex := executeDeletions doc fs
    { fs := ex.fs, count := ex.deletedCount, space := ex.spaceFreed, files := ex.deletedFiles
      log := pv.log ++ ex.log }
  else
    let ex := executeDeletions doc fs
    { fs := ex.fs, count := ex.deletedCount, space := ex.spaceFreed, files := ex.deletedFiles
      log := ex.log }

/-- The keeper of a record: `paths[newest_index]`. -/
def keeperOf (g : DupRecord) : String := g.paths.getD g.newest_index ""

/-! ### Step 4 — `DuplicateRecoverer` -/

/-- Does a path pass the recovery filter?  `recover_all` passes
everything; otherwise the (already lowercased) search string must occur in
the lowercased path. -/
def pathMatches (recoverAll : Bool) (search : String) (p : String) : Bool :=
  recoverAll || strContainsSub (pyLowerStr p) search

/-- `DuplicateRecoverer._filter_matching_groups`. -/
def filterMatchingGroups (recoverAll : Bool) (search : String)
    (doc : List DupRecord) : List DupRecord :=
  if recoverAll then doc
  else doc.filter (fun g => g.paths.any (fun p => strContainsSub (pyLowerStr p) search))

/-- The body of the `preview_recoveries` loop for one group. -/
def previewRecGroup (recoverAll : Bool) (search : String)
    (s : PreviewState) (ig : Nat × DupRecord) : PreviewState :=
  let g := ig.2
  let filesToRecover :=
    ((enumFrom 0 g.paths).filter
      (fun ip => ip.1 ≠ g.newest_index && pathMatches recoverAll search ip.2)).map
      (fun ip => (ip.2, g.dates.getD ip.1 ""))
  let headerLog :=
    [LogEntry.groupHeader ig.1 (fullFilename g.filename g.extension) g.size_bytes,
     LogEntry.sourceNewest (g.paths.getD g.newest_index "")] ++
    (if g.newest_index < g.dates.length then
      [LogEntry.modifiedDate (g.dates.getD g.newest_index "")] else [])
  let recoverLog :=
    if filesToRecover.isEmpty then []
    else
      LogEntry.recoveringCount filesToRecover.length ::
      filesToRecover.flatMap (fun pd =>
        LogEntry.previewRecoverItem pd.1 ::
        (if pd.2 ≠ "" then [LogEntry.originalDate pd.2] else []))
  { totalFiles := s.totalFiles + filesToRecover.length
    totalSpace := s.totalSpace + filesToRecover.length * g.size_bytes
    log := s.log ++ headerLog ++ recoverLog }

/-- `DuplicateRecoverer.preview_recoveries`. -/
def preview_recoveries (recoverAll : Bool) (search : String)
    (doc : List DupRecord) : PreviewState :=
  let matching := filterMatchingGroups recoverAll search doc
  if matching.isEmpty then
    { totalFiles := 0, totalSpace := 0
      log := [LogEntry.sep, LogEntry.previewRecoverTitle, LogEntry.sep,
              LogEntry.noMatchingGroups, LogEntry.sep] }
  else
    let s0 : PreviewState :=
      { totalFiles := 0, totalSpace := 0
        log := [LogEntry.sep, LogEntry.previewRecoverTitle, LogEntry.sep] }
    let s1 := (enumFrom 1 matching).foldl (previewRecGroup recoverAll search) s0
    { s1 with
      log := s1.log ++
        [LogEntry.sep, LogEntry.summaryWouldRecover s1.totalFiles,
         LogEntry.spaceToRestore s1.totalSpace, LogEntry.sep] }

/-- Mutable state of the `recover_duplicates` execution loop. -/
structure RecState where
  fs : FS
  recoveredCount : Nat
  spaceRestored : Int
  recoveredFiles : List String
  failed : List (String × String)
  log : List LogEntry
deriving DecidableEq

/-- The body of the inner recovery loop for one `(i, path)` pair: act only
on filtered non-keeper indices; create the missing parent directory (with
a log line); record a failure when copying raises `PermissionError`;
otherwise copy the source over the path and update the totals. -/
def recoverOnePath (recoverAll : Bool) (search : String) (size : Int) (newestIdx : Nat)
    (sourcePath : String) (s : RecState) (ip : Nat × String) : RecState :=
  if ip.1 ≠ newestIdx && pathMatches recoverAll search ip.2 then
    let parentDir := dirname ip.2
    let s1 :=
      if parentDir ≠ "" && !s.fs.dirExists parentDir then
        { s with fs := s.fs.mkdir parentDir, log := s.log ++ [LogEntry.mkdirLine parentDir] }
      else s
    if s1.fs.denied.contains ip.2 then
      { s1 with failed := s1.failed ++ [(ip.2, "Permission denied")]
                log := s1.log ++ [LogEntry.errorPermission ip.2] }
    else
      { s1 with fs := s1.fs.copyTo ip.2
                recoveredCount := s1.recoveredCount + 1
                spaceRestored := s1.spaceRestored + size
                recoveredFiles := s1.recoveredFiles ++ [ip.2]
                log := s1.log ++ [LogEntry.recoveredPath ip.2] }
  else s

/-- The inner recovery loop over `enumerate(paths)`. -/
def recoverPaths (recoverAll : Bool) (search : String) (size : Int) (newestIdx : Nat)
    (sourcePath : String) : List (Nat × String) → RecState → RecState
  | [], s => s
  | ip :: rest, s =>
    recoverPaths recoverAll search size newestIdx sourcePath rest
      (recoverOnePath recoverAll search size newestIdx sourcePath s ip)

/-- Process one record of the recovery execution loop: when the source
path `paths[newest_index]` does not exist, log the error and skip the
whole record; otherwise run the inner loop. -/
def recoverGroup (recoverAll : Bool) (search : String)
    (s : RecState) (ig : Nat × DupRecord) : RecState :=
  let g := ig.2
  let sourcePath := g.paths.getD g.newest_index ""
  if !s.fs.pathExists sourcePath then
    { s with
      log := s.log ++
        [LogEntry.recGroupHeader ig.1 (fullFilename g.filename g.extension),
         LogEntry.errorSourceMissing sourcePath] }
  else
    let s1 :=
      { s with
        log := s.log ++
          [LogEntry.recGroupHeader ig.1 (fullFilename g.filename g.extension),
           LogEntry.sourceLine sourcePath] }
    recoverPaths recoverAll search g.size_bytes g.newest_index sourcePath
      (enumFrom 0 g.paths) s1

/-- The recovery execution loop over `enumerate(matching_groups, 1)`. -/
def recoverGroups (recoverAll : Bool) (search : String) :
    List (Nat × DupRecord) → RecState → RecState
  | [], s => s
  | ig :: rest, s => recoverGroups recoverAll search rest (recoverGroup recoverAll search s ig)

/-- The executing phase of `recover_duplicates`. -/
def executeRecoveries (recoverAll : Bool) (search : String) (doc : List DupRecord)
    (fs : FS) : RecState :=
  let matching := filterMatchingGroups recoverAll search doc
  let s0 : RecState :=
    { fs := fs, recoveredCount := 0, spaceRestored := 0, recoveredFiles := [], failed := []
      log := [LogEntry.sep, LogEntry.executingRecoverTitle, LogEntry.sep] }
  let s1 := recoverGroups recoverAll search (enumFrom 1 matching) s0
  { s1 with
    log := s1.log ++
      [LogEntry.sep, LogEntry.summaryTitle, LogEntry.filesRecovered s1.recoveredCount,
       LogEntry.spaceRestored s1.spaceRestored] ++
      (if s1.failed.isEmpty then []
       else LogEntry.failedRecoveries s1.failed.length ::
         s1.failed.map (fun pe => LogEntry.failedItem pe.1 pe.2)) ++
      [LogEntry.sep] }

/-- `DuplicateRecoverer.recover_duplicates`; `search` is the search string
as stored by the constructor (already lowercased). -/
def recover_duplicates (doc : List DupRecord) (recoverAll : Bool) (search : String)
    (dryRun confirm : Bool) (response : String) (fs : FS) : RunResult :=
  if dryRun then
    let pv := preview_recoveries recoverAll search doc
    { fs := fs, count := pv.totalFiles, space := pv.totalSpace, files := []
      log := LogEntry.dryRunNoticeRecover :: pv.log }
  else if confirm && !pyAffirmative response then
    let pv := preview_recoveries recoverAll search doc
    { fs := fs, count := 0, space := 0, files := []
      log := pv.log ++ [LogEntry.recoveryCancelled] }
  else if confirm then
    let pv := preview_recoveries recoverAll search doc
    let ex := executeRecoveries recoverAll search doc fs
    { fs := ex.fs, count := ex.recoveredCount, space := ex.spaceRestored
      files := ex.recoveredFiles, log := pv.log ++ ex.log }
  else
    let ex := executeRecoveries recoverAll search doc fs
    { fs := ex.fs, count := ex.recoveredCount, space := ex.spaceRestored
      files := ex.recoveredFiles, log := ex.log }

/-! ## Helper lemmas: the code-point lexicographic order -/

theorem lexLt_irrefl : ∀ l : List Char, lexLt l l = false
  | [] => rfl
  | a :: as => by simp [lexLt, lexLt_irrefl as]

theorem lexLt_trans : ∀ {a b c : List Char},
    lexLt a b = true → lexLt b c = true → lexLt a c = true
  | [], [], _, h1, _ => by simp [lexLt] at h1
  | [], _ :: _, [], _, h2 => by simp [lexLt] at h2
  | [], _ :: _, _ :: _, _, _ => rfl
  | _ :: _, [], _, h1, _ => by simp [lexLt] at h1
  | _ :: _, _ :: _, [], _, h2 => by simp [lexLt] at h2
  | x :: xs, y :: ys, z :: zs, h1, h2 => by
    simp only [lexLt] at h1 h2 ⊢
    rcases lt_trichotomy x y with hxy | hxy | hxy
    · rcases lt_trichotomy y z with hyz | hyz | hyz
      · simp [lt_trans hxy hyz]
      · subst hyz; simp [hxy]
      · rw [if_neg (asymm hyz), if_pos hyz] at h2
        exact absurd h2 Bool.false_ne_true
    · subst hxy
      rw [if_neg (lt_irrefl x), if_neg (lt_irrefl x)] at h1
      rcases lt_trichotomy x z with hxz | hxz | hxz
      · simp [hxz]
      · subst hxz
        rw [if_neg (lt_irrefl x), if_neg (lt_irrefl x)] at h2 ⊢
        exact lexLt_trans h1 h2
      · rw [if_neg (asymm hxz), if_pos hxz] at h2
        exact absurd h2 Bool.false_ne_true
    · rw [if_neg (asymm hxy), if_pos hxy] at h1
      exact absurd h1 Bool.false_ne_true

theorem eq_of_lexLt_false : ∀ {a b : List Char},
    lexLt a b = false → lexLt b a = false → a = b
  | [], [], _, _ => rfl
  | [], _ :: _, h1, _ => by simp [lexLt] at h1
  | _ :: _, [], _, h2 => by simp [lexLt] at h2
  | x :: xs, y :: ys, h1, h2 => by
    simp only [lexLt] at h1 h2
    rcases lt_trichotomy x y with hxy | hxy | hxy
    · rw [if_pos hxy] at h1
      exact absurd h1.symm Bool.false_ne_true
    · subst hxy
      rw [if_neg (lt_irrefl x), if_neg (lt_irrefl x)] at h1 h2
      rw [eq_of_lexLt_false h1 h2]
    · rw [if_neg (asymm hxy), if_pos hxy] at h2
      exact absurd h2.symm Bool.false_ne_true

theorem strLeB_refl (a : String) : strLeB a a = true := by
  simp [strLeB, lexLt_irrefl]

theorem strLeB_total {a b : String} (h : strLeB a b = false) : strLeB b a = true := by
  simp only [strLeB, Bool.not_eq_false', Bool.not_eq_true'] at h ⊢
  cases hq : lexLt a.data b.data with
  | false => rfl
  | true => exact absurd (lexLt_trans hq h) (by simp [lexLt_irrefl])

theorem strLeB_trans {a b c : String} (h1 : strLeB a b = true) (h2 : strLeB b c = true) :
    strLeB a c = true := by
  simp only [strLeB, Bool.not_eq_true'] at h1 h2 ⊢
  cases hq : lexLt c.data a.data with
  | false => rfl
  | true =>
    cases hbc : lexLt b.data c.data with
    | true => exact absurd (lexLt_trans hbc hq) (by simp [h1])
    | false =>
      have hdata : b.data = c.data := eq_of_lexLt_false hbc h2
      rw [← hdata] at hq
      exact absurd hq (by simp [h1])

theorem strLeB_of_strLtB {a b : String} (h : strLtB a b = true) : strLeB a b = true := by
  simp only [strLtB] at h
  simp only [strLeB, Bool.not_eq_true']
  cases hq : lexLt b.data a.data with
  | false => rfl
  | true => exact absurd (lexLt_trans h hq) (by simp [lexLt_irrefl])

theorem strLeB_of_strLtB_false {a b : String} (h : strLtB a b = false) : strLeB b a = true := by
  simp only [strLtB] at h
  simp [strLeB, h]

/-! ## Helper lemmas: `pyMax` and `indexOf` -/

theorem strLeB_pyMaxStep_left (a b : String) : strLeB a (pyMaxStep a b) = true := by
  unfold pyMaxStep
  cases h : strLtB a b with
  | true => simp [strLeB_of_strLtB h]
  | false => simp [strLeB_refl]

theorem strLeB_pyMaxStep_right (a b : String) : strLeB b (pyMaxStep a b) = true := by
  unfold pyMaxStep
  cases h : strLtB a b with
  | true => simp [strLeB_refl]
  | false => simp [strLeB_of_strLtB_false h]

theorem pyMaxStep_cases (a b : String) : pyMaxStep a b = a ∨ pyMaxStep a b = b := by
  unfold pyMaxStep
  cases strLtB a b <;> simp

theorem le_foldl_pyMaxStep : ∀ (l : List String) (a : String),
    strLeB a (l.foldl pyMaxStep a) = true
  | [], a => strLeB_refl a
  | b :: l, a =>
    strLeB_trans (strLeB_pyMaxStep_left a b) (le_foldl_pyMaxStep l (pyMaxStep a b))

theorem mem_le_foldl_pyMaxStep : ∀ (l : List String) (a x : String), x ∈ l →
    strLeB x (l.foldl pyMaxStep a) = true
  | b :: l, a, x, hx => by
    rcases List.mem_cons.mp hx with h | h
    · subst h
      exact strLeB_trans (strLeB_pyMaxStep_right a x) (le_foldl_pyMaxStep l (pyMaxStep a x))
    · exact mem_le_foldl_pyMaxStep l (pyMaxStep a b) x h

theorem foldl_pyMaxStep_mem : ∀ (l : List String) (a : String),
    l.foldl pyMaxStep a = a ∨ l.foldl pyMaxStep a ∈ l
  | [], _ => Or.inl rfl
  | b :: l, a => by
    rcases foldl_pyMaxStep_mem l (pyMaxStep a b) with h | h
    · rcases pyMaxStep_cases a b with hc | hc
      · exact Or.inl (by rw [List.foldl_cons, h, hc])
      · exact Or.inr (by rw [List.foldl_cons, h, hc]; exact List.mem_cons_self b l)
    · exact Or.inr (List.mem_cons_of_mem b h)

theorem pyMax_mem {l : List String} (h : l ≠ []) : pyMax l ∈ l := by
  cases l with
  | nil => exact absurd rfl h
  | cons d rest =>
    simp only [pyMax]
    rcases foldl_pyMaxStep_mem rest d with hc | hc
    · rw [hc]; exact List.mem_cons_self d rest
    · exact List.mem_cons_of_mem d hc

theorem le_pyMax {l : List String} {x : String} (hx : x ∈ l) : strLeB x (pyMax l) = true := by
  cases l with
  | nil => exact absurd hx (List.not_mem_nil x)
  | cons d rest =>
    simp only [pyMax]
    rcases List.mem_cons.mp hx with h | h
    · subst h; exact le_foldl_pyMaxStep rest x
    · exact mem_le_foldl_pyMaxStep rest d x h

theorem get_ne_of_lt_indexOf : ∀ (l : List String) (a : String) (j : Nat) (hj : j < l.length),
    j < l.indexOf a → l.get ⟨j, hj⟩ ≠ a
  | [], _, j, hj, _ => absurd hj (by simp)
  | b :: l, a, j, hj, hlt => by
    by_cases hba : b = a
    · rw [List.indexOf_cons_eq _ hba] at hlt; omega
    · cases j with
      | zero => simpa using hba
      | succ j =>
        rw [List.indexOf_cons_ne _ hba] at hlt
        exact get_ne_of_lt_indexOf l a j (by simpa using hj) (by omega)

/-! ## Helper lemmas: `newest_index` derivation -/

theorem get_newest_index_spec (dates : List String) (hne : dates ≠ []) :
    NewestIndexSpec dates (get_newest_index dates) := by
  have hie : dates.isEmpty = false := by
    cases dates with
    | nil => exact absurd rfl hne
    | cons d rest => rfl
  cases hany : dates.any (fun d => !(d == "")) with
  | true =>
    have hval : get_newest_index dates = dates.indexOf (pyMax dates) := by
      unfold get_newest_index
      rw [hie, hany]
      simp
    rw [hval]
    unfold NewestIndexSpec
    have hmem : pyMax dates ∈ dates := pyMax_mem hne
    have hidx : dates.indexOf (pyMax dates) < dates.length :=
      List.indexOf_lt_length.mpr hmem
    refine ⟨hidx, ?_, ?_⟩
    · intro _ h
      constructor
      · intro d hd
        rw [List.indexOf_get h]
        exact le_pyMax hd
      · intro j hj hjlt
        rw [List.indexOf_get h]
        exact get_ne_of_lt_indexOf dates (pyMax dates) j hj hjlt
    · intro hall
      rcases List.any_eq_true.mp hany with ⟨d, hd, hdne⟩
      have := hall d hd
      simp [this] at hdne
  | false =>
    have hval : get_newest_index dates = 0 := by
      unfold get_newest_index
      rw [hie, hany]
      simp
    rw [hval]
    unfold NewestIndexSpec
    refine ⟨List.length_pos.mpr hne, ?_, fun _ => rfl⟩
    intro ⟨d, hd, hdne⟩
    have := List.any_eq_false.mp hany d hd
    simp [hdne] at this

/-! ## Helper lemmas: Python sort -/

theorem pyInsert_length (a : String) : ∀ l : List String, (pyInsert a l).length = l.length + 1
  | [] => rfl
  | b :: l => by
    unfold pyInsert
    by_cases h : strLeB a b = true
    · rw [if_pos h]
      rfl
    · rw [if_neg h]
      simp only [List.length_cons, pyInsert_length a l]

theorem pySortStrings_length : ∀ l : List String, (pySortStrings l).length = l.length
  | [] => rfl
  | a :: l => by
    unfold pySortStrings
    rw [pyInsert_length, pySortStrings_length l, List.length_cons]

theorem mem_pyInsert (a x : String) : ∀ l : List String, x ∈ pyInsert a l → x = a ∨ x ∈ l
  | [], hx => by
    simp only [pyInsert, List.mem_singleton] at hx
    exact Or.inl hx
  | b :: l, hx => by
    unfold pyInsert at hx
    by_cases h : strLeB a b = true
    · rw [if_pos h] at hx
      rcases List.mem_cons.mp hx with hc | hc
      · exact Or.inl hc
      · exact Or.inr hc
    · rw [if_neg h] at hx
      rcases List.mem_cons.mp hx with hc | hc
      · exact Or.inr (hc ▸ List.mem_cons_self b l)
      · rcases mem_pyInsert a x l hc with hc2 | hc2
        · exact Or.inl hc2
        · exact Or.inr (List.mem_cons_of_mem b hc2)

theorem pyInsert_sorted (a : String) : ∀ l : List String,
    List.Sorted (fun x y => strLeB x y = true) l →
    List.Sorted (fun x y => strLeB x y = true) (pyInsert a l)
  | [], _ => List.sorted_singleton a
  | b :: l, hs => by
    unfold pyInsert
    rcases List.sorted_cons.mp hs with ⟨hb, hl⟩
    by_cases h : strLeB a b = true
    · rw [if_pos h]
      refine List.sorted_cons.mpr ⟨?_, hs⟩
      intro x hx
      rcases List.mem_cons.mp hx with hc | hc
      · exact hc ▸ h
      · exact strLeB_trans h (hb x hc)
    · rw [if_neg h]
      have hf : strLeB a b = false := by simpa using h
      refine List.sorted_cons.mpr ⟨?_, pyInsert_sorted a l hl⟩
      intro x hx
      rcases mem_pyInsert a x l hx with hc | hc
      · exact hc ▸ strLeB_total hf
      · exact hb x hc

theorem pySortStrings_sorted : ∀ l : List String,
    List.Sorted (fun x y => strLeB x y = true) (pySortStrings l)
  | [] => List.sorted_nil
  | a :: l => pyInsert_sorted a (pySortStrings l) (pySortStrings_sorted l)

/-! ## Helper lemmas: the chunked byte comparison -/

theorem cmpChunks_eq_true_iff {k : Nat} (hk : 0 < k) :
    ∀ c1 c2 : List Nat, cmpChunks k c1 c2 = true ↔ c1 = c2 := by
  intro c1 c2
  generalize hn : c1.length = n
  induction n using Nat.strong_induction_on generalizing c1 c2 with
  | _ n ih =>
    rw [cmpChunks]
    by_cases hne : c1.take k = c2.take k
    · rw [if_neg (not_not_intro hne)]
      by_cases hnil : c1.take k = []
      · rw [dif_pos hnil]
        have hc1 : c1 = [] := by
          rcases List.take_eq_nil_iff.mp hnil with h | h

          · omega
          · exact h
        have hc2 : c2 = [] := by
          rcases List.take_eq_nil_iff.mp (hne ▸ hnil) with h | h
          · omega
          · exact h
        simp [hc1, hc2]
      · rw [dif_neg hnil]
        have hc1 : c1 ≠ [] := by
          intro h0; subst h0; simp at hnil
        have hlt : (c1.drop k).length < n := by
          rw [← hn, List.length_drop]
          have : 0 < c1.length := List.length_pos.mpr hc1
          omega
        rw [ih _ hlt _ _ rfl]
        constructor
        · intro hdrop
          calc c1 = c1.take k ++ c1.drop k := (List.take_append_drop k c1).symm
            _ = c2.take k ++ c2.drop k := by rw [hne, hdrop]
            _ = c2 := List.take_append_drop k c2
        · intro h; rw [h]
    · rw [if_pos hne]
      constructor
      · intro h; exact absurd h Bool.false_ne_true
      · intro h; exact absurd (h ▸ rfl) hne

/-! ## Helper lemmas: `enumerate` -/

theorem mem_enumFrom : ∀ {l : List α} {n i : Nat} {p : α},
    (i, p) ∈ enumFrom n l → ∃ j, ∃ hj : j < l.length, i = n + j ∧ l.get ⟨j, hj⟩ = p := by
  intro l
  induction l with
  | nil => intro n i p h; simp [enumFrom] at h
  | cons a l ihl =>
    intro n i p h
    rcases List.mem_cons.mp h with hc | hc
    · exact ⟨0, by simp, by simp at hc; omega, by simp at hc; simp [hc.2]⟩
    · rcases ihl hc with ⟨j, hj, hi, hget⟩
      exact ⟨j + 1, by simpa using hj, by omega, by simpa using hget⟩

theorem enumFrom_mem_of_get : ∀ (l : List α) (n j : Nat) (hj : j < l.length),
    (n + j, l.get ⟨j, hj⟩) ∈ enumFrom n l := by
  intro l
  induction l with
  | nil => intro n j hj; simp at hj
  | cons a l ihl =>
    intro n j hj
    cases j with
    | zero => simp [enumFrom]
    | succ j =>
      have := ihl (n + 1) j (by simpa using hj)
      refine List.mem_cons_of_mem _ ?_
      have harith : n + (j + 1) = (n + 1) + j := by omega
      simpa [harith] using this

theorem enumFrom_map_snd : ∀ (l : List α) (n : Nat), (enumFrom n l).map Prod.snd = l
  | [], _ => rfl
  | a :: l, n => by simp [enumFrom, enumFrom_map_snd l (n + 1)]

/-! ## Helper lemmas: the digest cache -/

theorem lookup_append_of_none {l1 l2 : List (String × String)} {k : String}
    (h : l1.lookup k = none) : (l1 ++ l2).lookup k = l2.lookup k := by
  induction l1 with
  | nil => rfl
  | cons p l ihl =>
    rw [List.lookup_cons] at h
    rw [List.cons_append, List.lookup_cons]
    cases hk : k == p.1 with
    | false =>
      rw [hk] at h
      exact ihl h
    | true =>
      rw [hk] at h
      simp at h

theorem lookup_append_of_some {l1 l2 : List (String × String)} {k v : String}
    (h : l1.lookup k = some v) : (l1 ++ l2).lookup k = some v := by
  induction l1 with
  | nil => simp at h
  | cons p l ihl =>
    rw [List.lookup_cons] at h
    rw [List.cons_append, List.lookup_cons]
    cases hk : k == p.1 with
    | false =>
      rw [hk] at h
      exact ihl h
    | true =>
      rw [hk] at h
      exact h

theorem compute_file_hash_fst (hashFn : List Nat → String) (disk : String → FileContent)
    {cache : HashCache} (hok : CacheOk hashFn disk cache) (q : String) :
    (compute_file_hash hashFn disk cache q).1 = runHash hashFn disk q := by
  unfold compute_file_hash runHash
  cases hq : cache.lookup q with
  | none => cases disk q <;> rfl
  | some v =>
    rcases hok q v hq with ⟨content, hdq, hcv⟩
    rw [hdq]
    simpa using hcv.symm

theorem compute_file_hash_ok (hashFn : List Nat → String) (disk : String → FileContent)
    {cache : HashCache} (hok : CacheOk hashFn disk cache) (q : String) :
    CacheOk hashFn disk (compute_file_hash hashFn disk cache q).2 := by
  unfold compute_file_hash
  cases hq : cache.lookup q with
  | some v => exact hok
  | none =>
    cases hdq : disk q with
    | none => exact hok
    | some content =>
      intro r v hr
      simp only at hr
      by_cases hcr : cache.lookup r = none
      · rw [lookup_append_of_none hcr, List.lookup_cons] at hr
        by_cases hrq : (r == q) = true
        · rw [hrq] at hr
          simp only [Option.some.injEq] at hr
          exact ⟨content, (beq_iff_eq.mp hrq) ▸ hdq, hr⟩
        · rw [Bool.not_eq_true] at hrq
          rw [hrq] at hr
          simp at hr
      · rcases Option.ne_none_iff_exists.mp hcr with ⟨v0, hv0⟩
        rw [lookup_append_of_some hv0.symm] at hr
        exact hok r v (by rw [← hv0, hr])

/-! ## Helper lemmas: byte-comparison grouping -/

theorem groupByteLoop_mem (cmp : String → String → Bool) :
    ∀ (l g : List String), g ∈ groupByteLoop cmp l → ∀ p ∈ g, p ∈ l := by
  intro l
  generalize hn : l.length = n
  induction n using Nat.strong_induction_on generalizing l with
  | _ n ih =>
    intro g hg p hp
    cases l with
    | nil => simp [groupByteLoop] at hg
    | cons current rest =>
      simp only [groupByteLoop] at hg
      rcases List.mem_append.mp hg with hc | hc
      · by_cases hlen :
          1 < (current :: rest.filter (fun other => cmp current other)).length
        · rw [if_pos hlen] at hc
          rcases List.mem_singleton.mp hc with rfl
          rcases List.mem_cons.mp hp with hpc | hpc
          · exact hpc ▸ List.mem_cons_self current rest
          · exact List.mem_cons_of_mem current (List.mem_of_mem_filter hpc)
        · rw [if_neg hlen] at hc
          simp at hc
      · have hrec : p ∈ rest.filter (fun other => !cmp current other) := by
          have hlt : (rest.filter (fun other => !cmp current other)).length < n := by
            rw [← hn]
            simp only [List.length_cons]
            exact Nat.lt_succ_of_le (List.length_filter_le _ _)
          exact ih _ hlt _ rfl g hc p hp
        exact List.mem_cons_of_mem current (List.mem_of_mem_filter hrec)

theorem groupByteLoop_disjoint (cmp : String → String → Bool) :
    ∀ l : List String, l.Nodup → PairwiseDisjoint (groupByteLoop cmp l) := by
  intro l
  generalize hn : l.length = n
  induction n using Nat.strong_induction_on generalizing l with
  | _ n ih =>
    intro hnd
    cases l with
    | nil => simp [groupByteLoop, PairwiseDisjoint]
    | cons current rest =>
      rcases List.nodup_cons.mp hnd with ⟨hcur, hrest⟩
      have hflt : (rest.filter (fun other => !cmp current other)).length < n := by
        rw [← hn]
        simp only [List.length_cons]
        exact Nat.lt_succ_of_le (List.length_filter_le _ _)
      unfold PairwiseDisjoint
      simp only [groupByteLoop]
      rw [List.pairwise_append]
      refine ⟨?_, ih _ hflt _ rfl (hrest.filter _), ?_⟩
      · by_cases hlen :
          1 < (current :: rest.filter (fun other => cmp current other)).length
        · rw [if_pos hlen]
          exact List.pairwise_singleton _ _
        · rw [if_neg hlen]
          exact List.Pairwise.nil
      · intro g1 hg1 g2 hg2 p hp1 hp2
        have hg1mem : p ∈ current :: rest.filter (fun other => cmp current other) := by
          by_cases hlen :
            1 < (current :: rest.filter (fun other => cmp current other)).length
          · rw [if_pos hlen] at hg1
            exact (List.mem_singleton.mp hg1) ▸ hp1
          · rw [if_neg hlen] at hg1
            simp at hg1
        have hp2' : p ∈ rest.filter (fun other => !cmp current other) :=
          groupByteLoop_mem cmp _ g2 hg2 p hp2
        rcases List.mem_cons.mp hg1mem with hpc | hpc
        · exact hcur (hpc ▸ List.mem_of_mem_filter hp2')
        · have h1 : cmp current p = true := by
            have := List.of_mem_filter hpc
            simpa using this
          have h2 : cmp current p = false := by
            have := List.of_mem_filter hp2'
            simpa using this
          rw [h1] at h2
          exact absurd h2 (by simp)

/-! ## Helper lemmas: hash grouping -/

theorem insertBucket_fst_mem {h p : String} :
    ∀ (buckets : List (String × List String)) (b : String × List String),
      b ∈ insertBucket h p buckets → b.1 = h ∨ b.1 ∈ buckets.map Prod.fst
  | [], b, hb => by
    simp only [insertBucket, List.mem_singleton] at hb
    exact Or.inl (by rw [hb])
  | (k, ps) :: rest, b, hb => by
    unfold insertBucket at hb
    by_cases hk : k = h
    · rw [if_pos hk] at hb
      rcases List.mem_cons.mp hb with hc | hc
      · exact Or.inl (by rw [hc, hk])
      · refine Or.inr ?_
        rw [List.map_cons]
        exact List.mem_cons_of_mem _ (List.mem_map_of_mem Prod.fst hc)
    · rw [if_neg hk] at hb
      rcases List.mem_cons.mp hb with hc | hc
      · refine Or.inr ?_
        rw [hc, List.map_cons]
        exact List.mem_cons_self _ _
      · rcases insertBucket_fst_mem rest b hc with hc2 | hc2
        · exact Or.inl hc2
        · refine Or.inr ?_
          rw [List.map_cons]
          exact List.mem_cons_of_mem _ hc2

theorem insertBucket_inv {f : String → String} {h p : String}
    (hfp : f p = h) (hne : h ≠ "") :
    ∀ buckets : List (String × List String), HashBucketsInv f buckets →
      HashBucketsInv f (insertBucket h p buckets)
  | [], _ => by
    constructor
    · simp [insertBucket]
    · intro b hb
      simp only [insertBucket, List.mem_singleton] at hb
      subst hb
      exact ⟨hne, fun q hq => by simp at hq; rw [hq, hfp]⟩
  | (k, ps) :: rest, hinv => by
    rcases hinv with ⟨hkeys, hall⟩
    rw [List.map_cons, List.nodup_cons] at hkeys
    unfold insertBucket
    by_cases hk : k = h
    · rw [if_pos hk]
      constructor
      · rw [List.map_cons, List.nodup_cons]
        exact hkeys
      · intro b hb
        rcases List.mem_cons.mp hb with hc | hc
        · subst hc
          refine ⟨(hall (k, ps) (List.mem_cons_self _ _)).1, ?_⟩
          intro q hq
          rcases List.mem_append.mp hq with hc2 | hc2
          · exact (hall (k, ps) (List.mem_cons_self _ _)).2 q hc2
          · rw [List.mem_singleton.mp hc2, hfp, hk]
        · exact hall b (List.mem_cons_of_mem _ hc)
    · rw [if_neg hk]
      have hrest : HashBucketsInv f rest :=
        ⟨hkeys.2, fun b hb => hall b (List.mem_cons_of_mem _ hb)⟩
      have hrec := insertBucket_inv hfp hne rest hrest
      constructor
      · rw [List.map_cons, List.nodup_cons]
        refine ⟨?_, hrec.1⟩
        intro hmem
        rcases List.mem_map.mp hmem with ⟨b, hb, hb1⟩
        rcases insertBucket_fst_mem rest b hb with hc | hc
        · exact hk (hb1.symm.trans hc)
        · exact hkeys.1 (hb1 ▸ hc)
      · intro b hb
        rcases List.mem_cons.mp hb with hc | hc
        · exact hc ▸ hall (k, ps) (List.mem_cons_self _ _)
        · exact hrec.2 b hc

theorem hashGroupsLoop_inv (hashFn : List Nat → String) (disk : String → FileContent) :
    ∀ (paths : List String) (buckets : List (String × List String)) (cache : HashCache),
      CacheOk hashFn disk cache → HashBucketsInv (runHash hashFn disk) buckets →
      HashBucketsInv (runHash hashFn disk) (hashGroupsLoop hashFn disk paths buckets cache).1
  | [], _, _, _, hinv => hinv
  | p :: rest, buckets, cache, hok, hinv => by
    unfold hashGroupsLoop
    have hfst := compute_file_hash_fst hashFn disk hok p
    have hok2 := compute_file_hash_ok hashFn disk hok p
    by_cases hz : (compute_file_hash hashFn disk cache p).1 = ""
    · rw [if_pos hz]
      exact hashGroupsLoop_inv hashFn disk rest buckets _ hok2 hinv
    · rw [if_neg hz]
      exact hashGroupsLoop_inv hashFn disk rest _ _ hok2
        (insertBucket_inv hfst.symm hz buckets hinv)

theorem hashBucketsInv_disjoint {f : String → String}
    {buckets : List (String × List String)} (hinv : HashBucketsInv f buckets) :
    PairwiseDisjoint ((buckets.map Prod.snd).filter (fun g => 1 < g.length)) := by
  unfold PairwiseDisjoint
  apply List.Pairwise.filter
  rw [List.pairwise_map]
  have hkeys : buckets.Pairwise (fun b1 b2 => b1.1 ≠ b2.1) :=
    List.pairwise_map.mp hinv.1
  refine hkeys.imp_of_mem ?_
  intro b1 b2 hb1 hb2 hne12 p hp1 hp2
  have h1 := (hinv.2 b1 hb1).2 p hp1
  have h2 := (hinv.2 b2 hb2).2 p hp2
  exact hne12 (h1.symm.trans h2)

theorem hash_groups_inv (hashFn : List Nat → String) (disk : String → FileContent)
    (cache : HashCache) (paths : List String) (hok : CacheOk hashFn disk cache) :
    HashBucketsInv (runHash hashFn disk) (hashGroupsLoop hashFn disk paths [] cache).1 :=
  hashGroupsLoop_inv hashFn disk paths [] cache hok
    ⟨List.nodup_nil, fun b hb => absurd hb (List.not_mem_nil b)⟩

theorem not_mem_hash_group_of_failed (hashFn : List Nat → String) (disk : String → FileContent)
    {cache : HashCache} {paths : List String} {p : String}
    (hok : CacheOk hashFn disk cache) (hrp : runHash hashFn disk p = "") :
    ∀ g ∈ (_group_identical_files_hash hashFn disk cache paths).1, p ∉ g := by
  intro g hg hpg
  have hinv := hash_groups_inv hashFn disk cache paths hok
  unfold _group_identical_files_hash at hg
  have hg2 := List.mem_of_mem_filter hg
  rcases List.mem_map.mp hg2 with ⟨b, hb, hbg⟩
  have := (hinv.2 b hb).2 p (hbg ▸ hpg)
  exact (hinv.2 b hb).1 (this ▸ hrp)

/-! ## Claim theorems: the classifier -/

/-- C2.  For every list of candidate paths under one key, both
classification strategies place each path in at most one emitted group:
the byte-comparison grouping (for an arbitrary disk, i.e. an arbitrary
comparison oracle, so in particular one degraded by I/O errors) and the
hash grouping (for an arbitrary disk in which some reads may fail, and
any digest cache consistent with that disk) each return pairwise-disjoint
group lists. -/
theorem classify_groups_pairwise_disjoint (disk : String → FileContent) (chunkSize : Nat)
    (hashFn : List Nat → String) (cache : HashCache) (paths : List String)
    (hok : CacheOk hashFn disk cache) :
    PairwiseDisjoint (_group_identical_files_byte disk chunkSize paths) ∧
    PairwiseDisjoint (_group_identical_files_hash hashFn disk cache paths).1 := by
  constructor
  · exact groupByteLoop_disjoint _ paths.dedup paths.nodup_dedup
  · unfold _group_identical_files_hash
    exact hashBucketsInv_disjoint (hash_groups_inv hashFn disk cache paths hok)

/-- Witness for C2 at a concrete input (empty cache, a disk on which one
read fails). -/
theorem classify_groups_pairwise_disjoint_witness :
    PairwiseDisjoint
      (_group_identical_files_byte (fun q => if q = "a" then none else some [1]) 8192
        ["a", "b", "c"]) ∧
    PairwiseDisjoint
      (_group_identical_files_hash (fun _ => "h")
        (fun q => if q = "a" then none else some [1]) [] ["a", "b", "c"]).1 :=
  classify_groups_pairwise_disjoint (fun q => if q = "a" then none else some [1]) 8192
    (fun _ => "h") [] ["a", "b", "c"] (fun q v hv => by simp [List.lookup] at hv)

/-- C4.  `compare_files_byte_by_byte` (for a positive chunk size, such as
the default 8192) returns `True` exactly when both files can be read to
end-of-file and their byte contents are identical; a read failure on
either side yields `False`. -/
theorem compare_files_byte_by_byte_iff (file1 file2 : FileContent) {chunkSize : Nat}
    (hk : 0 < chunkSize) :
    compare_files_byte_by_byte file1 file2 chunkSize = true ↔
      ∃ content, file1 = some content ∧ file2 = some content := by
  cases file1 with
  | none => simp [compare_files_byte_by_byte]
  | some c1 =>
    cases file2 with
    | none => simp [compare_files_byte_by_byte]
    | some c2 =>
      simp only [compare_files_byte_by_byte]
      rw [cmpChunks_eq_true_iff hk]
      constructor
      · intro h
        exact ⟨c1, rfl, by rw [h]⟩
      · rintro ⟨c, hc1, hc2⟩
        rw [Option.some.injEq] at hc1 hc2
        rw [hc1, hc2]

/-- Witness for C4 at a concrete input: identical three-byte files compare
equal under the default chunk size. -/
theorem compare_files_byte_by_byte_iff_witness :
    compare_files_byte_by_byte (some [1, 2, 3]) (some [1, 2, 3]) 8192 = true :=
  (compare_files_byte_by_byte_iff (some [1, 2, 3]) (some [1, 2, 3]) (by decide)).mpr
    ⟨[1, 2, 3], rfl, rfl⟩

/-- C5.  A path whose digest computation fails with an I/O error compares
unequal to every file, including itself; it is excluded from every emitted
hash group; and it still appears as a singleton residual entry in the
differences output computed by `main`. -/
theorem failed_digest_excluded (hashFn : List Nat → String) (disk : String → FileContent)
    (cache : HashCache) (paths : List String) (p f : String)
    (hok : CacheOk hashFn disk cache) (hp : p ∈ paths) (hfail : disk p = none) :
    ((compare_files_by_hash hashFn disk cache p f).1 = false ∧
     (compare_files_by_hash hashFn disk cache f p).1 = false ∧
     (compare_files_by_hash hashFn disk cache p p).1 = false) ∧
    (∀ g ∈ (_group_identical_files_hash hashFn disk cache paths).1, p ∉ g) ∧
    [p] ∈ differencesFor paths (_group_identical_files_hash hashFn disk cache paths).1 := by
  have hrp : runHash hashFn disk p = "" := by
    unfold runHash
    rw [hfail]
  have hpz : (compute_file_hash hashFn disk cache p).1 = "" :=
    (compute_file_hash_fst hashFn disk hok p).trans hrp
  have hnot := @not_mem_hash_group_of_failed hashFn disk cache paths p hok hrp
  refine ⟨⟨?_, ?_, ?_⟩, hnot, ?_⟩
  · unfold compare_files_by_hash
    rw [if_pos (Or.inl hpz)]
  · unfold compare_files_by_hash
    have hok2 := compute_file_hash_ok hashFn disk hok f
    have hpz2 : (compute_file_hash hashFn disk
        (compute_file_hash hashFn disk cache f).2 p).1 = "" :=
      (compute_file_hash_fst hashFn disk hok2 p).trans hrp
    rw [if_pos (Or.inr hpz2)]
  · unfold compare_files_by_hash
    rw [if_pos (Or.inl hpz)]
  · unfold differencesFor
    by_cases hemp : ((_group_identical_files_hash hashFn disk cache paths).1).isEmpty
    · rw [if_pos hemp]
      exact List.mem_map_of_mem (fun q => [q]) hp
    · rw [if_neg hemp]
      refine List.mem_map_of_mem (fun q => [q]) ?_
      rw [List.mem_filter]
      refine ⟨hp, ?_⟩
      simp only [Bool.not_eq_true']
      rw [← Bool.not_eq_true, List.contains_iff_exists_mem_beq]
      intro hmem
      rcases hmem with ⟨q, hqmem, hqbeq⟩
      rw [show q = p from (beq_iff_eq.mp hqbeq).symm] at hqmem
      rcases List.mem_flatMap.mp hqmem with ⟨g, hg, hpg⟩
      simp only [id] at hpg
      exact hnot g hg hpg

/-- Witness for C5 at a concrete input (empty cache; reading `"a"` fails,
reading `"b"` succeeds). -/
theorem failed_digest_excluded_witness :
    ((compare_files_by_hash (fun _ => "h") (fun q => if q = "a" then none else some [1]) []
        "a" "b").1 = false ∧
     (compare_files_by_hash (fun _ => "h") (fun q => if q = "a" then none else some [1]) []
        "b" "a").1 = false ∧
     (compare_files_by_hash (fun _ => "h") (fun q => if q = "a" then none else some [1]) []
        "a" "a").1 = false) ∧
    (∀ g ∈ (_group_identical_files_hash (fun _ => "h")
        (fun q => if q = "a" then none else some [1]) [] ["a", "b"]).1, "a" ∉ g) ∧
    ["a"] ∈ differencesFor ["a", "b"]
      (_group_identical_files_hash (fun _ => "h")
        (fun q => if q = "a" then none else some [1]) [] ["a", "b"]).1 :=
  failed_digest_excluded (fun _ => "h") (fun q => if q = "a" then none else some [1]) []
    ["a", "b"] "a" "b" (fun q v hv => by simp [List.lookup] at hv) (by decide) (by decide)

/-! ## Claim theorems: the persisted records -/

/-- C3.  For every record emitted by the persistence step (duplicate or
difference, i.e. built by `mkDupItem` or `mkDiffItem` from a non-empty
group), `newest_index` lies in `[0, file_count)`; when some timestamp is
non-empty it is the position of the lexicographically maximal timestamp
with ties broken by first occurrence in sorted-path order; when every
timestamp is empty it is 0. -/
theorem record_newest_index_spec (fname ext : String) (size : Int) (gid : Nat)
    (dateOf : String → String) (group : List String) (hne : group ≠ []) :
    (NewestIndexSpec (mkDupItem fname ext size gid dateOf group).dates
       (mkDupItem fname ext size gid dateOf group).newest_index ∧
     (mkDupItem fname ext size gid dateOf group).newest_index <
       (mkDupItem fname ext size gid dateOf group).file_count) ∧
    (NewestIndexSpec (mkDiffItem fname ext size gid dateOf group).dates
       (mkDiffItem fname ext size gid dateOf group).newest_index ∧
     (mkDiffItem fname ext size gid dateOf group).newest_index <
       (mkDiffItem fname ext size gid dateOf group).file_count) := by
  have hlen : (pySortStrings group).length = group.length := pySortStrings_length group
  have hslen : 0 < (pySortStrings group).length := by
    rw [hlen]
    exact List.length_pos.mpr hne
  have hdne : (pySortStrings group).map dateOf ≠ [] := by
    intro h0
    have := congrArg List.length h0
    simp only [List.length_map, List.length_nil] at this
    omega
  have hspec := get_newest_index_spec ((pySortStrings group).map dateOf) hdne
  have hbound : get_newest_index ((pySortStrings group).map dateOf) <
      (pySortStrings group).length := by
    have := hspec.1
    simpa using this
  exact ⟨⟨hspec, hbound⟩, ⟨hspec, hbound⟩⟩

/-- Witness for C3 at a concrete input: two paths whose dates differ. -/
theorem record_newest_index_spec_witness :
    (NewestIndexSpec
       (mkDupItem "photo" "jpg" 100 1
          (fun q => if q = "a" then "2020-01-01" else "2021-01-01") ["b", "a"]).dates
       (mkDupItem "photo" "jpg" 100 1
          (fun q => if q = "a" then "2020-01-01" else "2021-01-01") ["b", "a"]).newest_index ∧
     (mkDupItem "photo" "jpg" 100 1
        (fun q => if q = "a" then "2020-01-01" else "2021-01-01") ["b", "a"]).newest_index <
       (mkDupItem "photo" "jpg" 100 1
          (fun q => if q = "a" then "2020-01-01" else "2021-01-01") ["b", "a"]).file_count) ∧
    (NewestIndexSpec
       (mkDiffItem "photo" "jpg" 100 1
          (fun q => if q = "a" then "2020-01-01" else "2021-01-01") ["b", "a"]).dates
       (mkDiffItem "photo" "jpg" 100 1
          (fun q => if q = "a" then "2020-01-01" else "2021-01-01") ["b", "a"]).newest_index ∧
     (mkDiffItem "photo" "jpg" 100 1
        (fun q => if q = "a" then "2020-01-01" else "2021-01-01") ["b", "a"]).newest_index <
       (mkDiffItem "photo" "jpg" 100 1
          (fun q => if q = "a" then "2020-01-01" else "2021-01-01") ["b", "a"]).file_count) :=
  record_newest_index_spec "photo" "jpg" 100 1
    (fun q => if q = "a" then "2020-01-01" else "2021-01-01") ["b", "a"] (by decide)

/-- C6.  Every record written to the persisted duplicates document has
`len(paths) = len(dates) = file_count` with dates parallel to paths, paths
sorted ascending, and `wasted_space_bytes = size_bytes * (file_count - 1)`;
the document total is the sum of the per-record wasted space; difference
records satisfy the same shape constraints. -/
theorem saved_records_well_formed (dateOf : String → String)
    (trueDuplicates differences : List ((String × String × Int) × List (List String))) :
    (∀ r ∈ (save_duplicates dateOf trueDuplicates).duplicates,
       r.paths.length = r.file_count ∧ r.dates.length = r.file_count ∧
       List.Sorted (fun a b => strLeB a b = true) r.paths ∧
       r.wasted_space_bytes = r.size_bytes * ((r.file_count : Int) - 1)) ∧
    (save_duplicates dateOf trueDuplicates).total_wasted_space_bytes =
      ((save_duplicates dateOf trueDuplicates).duplicates.map
        (fun r => r.wasted_space_bytes)).sum ∧
    (∀ r ∈ (save_differences dateOf differences).differences,
       r.paths.length = r.file_count ∧ r.dates.length = r.file_count ∧
       List.Sorted (fun a b => strLeB a b = true) r.paths) := by
  refine ⟨?_, rfl, ?_⟩
  · intro r hr
    unfold save_duplicates buildDuplicatesData at hr
    simp only at hr
    rcases List.mem_flatMap.mp hr with ⟨kg, _, hmem⟩
    rcases List.mem_map.mp hmem with ⟨ig, _, hrec⟩
    subst hrec
    refine ⟨rfl, by simp [mkDupItem], ?_, rfl⟩
    simpa [mkDupItem] using pySortStrings_sorted ig.2
  · intro r hr
    unfold save_differences buildDifferencesData at hr
    simp only at hr
    rcases List.mem_flatMap.mp hr with ⟨kg, _, hmem⟩
    rcases List.mem_map.mp hmem with ⟨ig, _, hrec⟩
    subst hrec
    refine ⟨rfl, by simp [mkDiffItem], ?_⟩
    simpa [mkDiffItem] using pySortStrings_sorted ig.2

/-- Witness for C6 at a concrete input: one key with one two-path group is
persisted and the resulting record satisfies the shape constraints. -/
theorem saved_records_well_formed_witness :
    (mkDupItem "photo" "jpg" 100 1 (fun _ => "2020-01-01") ["b", "a"]).paths.length =
      (mkDupItem "photo" "jpg" 100 1 (fun _ => "2020-01-01") ["b", "a"]).file_count ∧
    (mkDupItem "photo" "jpg" 100 1 (fun _ => "2020-01-01") ["b", "a"]).dates.length =
      (mkDupItem "photo" "jpg" 100 1 (fun _ => "2020-01-01") ["b", "a"]).file_count ∧
    List.Sorted (fun a b => strLeB a b = true)
      (mkDupItem "photo" "jpg" 100 1 (fun _ => "2020-01-01") ["b", "a"]).paths ∧
    (mkDupItem "photo" "jpg" 100 1 (fun _ => "2020-01-01") ["b", "a"]).wasted_space_bytes =
      (mkDupItem "photo" "jpg" 100 1 (fun _ => "2020-01-01") ["b", "a"]).size_bytes *
        (((mkDupItem "photo" "jpg" 100 1 (fun _ => "2020-01-01") ["b", "a"]).file_count : Int)
          - 1) :=
  (saved_records_well_formed (fun _ => "2020-01-01")
      [(("photo", "jpg", 100), [["b", "a"]])] []).1
    (mkDupItem "photo" "jpg" 100 1 (fun _ => "2020-01-01") ["b", "a"]) (by decide)

/-! ## Claim theorems: confirmation gate, recovery skip, memoization -/

/-- C8.  In a non-dry-run deletion or recovery run with confirmation, any
response other than (stripped, lowercased) `"yes"` leads to cancellation
with the filesystem untouched, a zero result, and a cancellation log
entry; and when the gate passes, the execution phase starts from the
filesystem exactly as it was loaded (no mutation happens before the
prompt: the preview phase does not receive the filesystem at all). -/
theorem confirmation_gate (doc : List DupRecord) (response : String) (fs : FS)
    (recoverAll : Bool) (search : String) (hno : pyAffirmative response = false) :
    ((delete_duplicates doc false true response fs).fs = fs ∧
     (delete_duplicates doc false true response fs).count = 0 ∧
     (delete_duplicates doc false true response fs).files = [] ∧
     LogEntry.cancelledByUser ∈ (delete_duplicates doc false true response fs).log) ∧
    ((recover_duplicates doc recoverAll search false true response fs).fs = fs ∧
     (recover_duplicates doc recoverAll search false true response fs).count = 0 ∧
     (recover_duplicates doc recoverAll search false true response fs).files = [] ∧
     LogEntry.recoveryCancelled ∈
       (recover_duplicates doc recoverAll search false true response fs).log) ∧
    (∀ resp2, pyAffirmative resp2 = true →
      (delete_duplicates doc false true resp2 fs).fs = (executeDeletions doc fs).fs ∧
      (recover_duplicates doc recoverAll search false true resp2 fs).fs =
        (executeRecoveries recoverAll search doc fs).fs) := by
  refine ⟨?_, ?_, ?_⟩
  · simp [delete_duplicates, hno]
  · simp [recover_duplicates, hno]
  · intro resp2 hyes
    constructor
    · simp [delete_duplicates, hyes]
    · simp [recover_duplicates, hyes, executeRecoveries]

/-- Witness for C8 at a concrete input: the response `" No "` cancels both
operators on a one-record document, and `"yes"` reaches execution. -/
theorem confirmation_gate_witness :
    ((delete_duplicates [] false true " No " ⟨["a"], [], []⟩).fs = ⟨["a"], [], []⟩ ∧
     (delete_duplicates [] false true " No " ⟨["a"], [], []⟩).count = 0 ∧
     (delete_duplicates [] false true " No " ⟨["a"], [], []⟩).files = [] ∧
     LogEntry.cancelledByUser ∈ (delete_duplicates [] false true " No " ⟨["a"], [], []⟩).log) ∧
    ((recover_duplicates [] true "" false true " No " ⟨["a"], [], []⟩).fs = ⟨["a"], [], []⟩ ∧
     (recover_duplicates [] true "" false true " No " ⟨["a"], [], []⟩).count = 0 ∧
     (recover_duplicates [] true "" false true " No " ⟨["a"], [], []⟩).files = [] ∧
     LogEntry.recoveryCancelled ∈
       (recover_duplicates [] true "" false true " No " ⟨["a"], [], []⟩).log) ∧
    ((delete_duplicates [] false true "yes" ⟨["a"], [], []⟩).fs =
       (executeDeletions [] ⟨["a"], [], []⟩).fs ∧
     (recover_duplicates [] true "" false true "yes" ⟨["a"], [], []⟩).fs =
       (executeRecoveries true "" [] ⟨["a"], [], []⟩).fs) :=
  ⟨(confirmation_gate [] " No " ⟨["a"], [], []⟩ true "" (by decide)).1,
   (confirmation_gate [] " No " ⟨["a"], [], []⟩ true "" (by decide)).2.1,
   (confirmation_gate [] " No " ⟨["a"], [], []⟩ true "" (by decide)).2.2 "yes" (by decide)⟩

/-- C9.  In a recovery execution loop, a record whose source path
`paths[newest_index]` does not exist contributes exactly a group header
and an error log line: the state handed to the remaining records is
otherwise unchanged (zero copies for the record), and the remaining
records are processed normally. -/
theorem recover_missing_source_skips (recoverAll : Bool) (search : String)
    (idx : Nat) (g : DupRecord) (rest : List (Nat × DupRecord)) (st : RecState)
    (hmiss : st.fs.pathExists (g.paths.getD g.newest_index "") = false) :
    recoverGroups recoverAll search ((idx, g) :: rest) st =
      recoverGroups recoverAll search rest
        { st with
          log := st.log ++
            [LogEntry.recGroupHeader idx (fullFilename g.filename g.extension),
             LogEntry.errorSourceMissing (g.paths.getD g.newest_index "")] } := by
  show recoverGroups recoverAll search rest (recoverGroup recoverAll search st (idx, g)) = _
  congr 1
  simp only [recoverGroup, hmiss, Bool.not_false, if_true]

/-- Witness for C9 at a concrete input: one record with source `"x"`
missing on an empty filesystem, followed by no further records. -/
theorem recover_missing_source_skips_witness :
    recoverGroups false "x"
      [(1, ⟨"f", "", 1, 1, 1, ["x"], ["d"], 0, 0⟩)]
      ⟨⟨[], [], []⟩, 0, 0, [], [], []⟩ =
      recoverGroups false "x" []
        { (⟨⟨[], [], []⟩, 0, 0, [], [], []⟩ : RecState) with
          log := ([] : List LogEntry) ++
            [LogEntry.recGroupHeader 1 (fullFilename "f" ""),
             LogEntry.errorSourceMissing ((["x"] : List String).getD 0 "")] } :=
  recover_missing_source_skips false "x" 1 ⟨"f", "", 1, 1, 1, ["x"], ["d"], 0, 0⟩ []
    ⟨⟨[], [], []⟩, 0, 0, [], [], []⟩ (by decide)

/-- C10.  `compute_file_hash` memoizes only successful digests: a call
that returns a non-empty digest leaves that digest cached, and every later
call for the same path returns it without reading the disk (the disk
argument of the later call is arbitrary, so even changed bytes are not
re-read); a call that fails with an I/O error returns `""` and caches
nothing, so a later call re-reads the file and returns whatever digest the
new read produces. -/
theorem compute_file_hash_memoization (hashFn : List Nat → String)
    (disk disk2 : String → FileContent) (cache : HashCache) (p : String) :
    (∀ h cache2, compute_file_hash hashFn disk cache p = (h, cache2) → h ≠ "" →
      ∀ disk3, compute_file_hash hashFn disk3 cache2 p = (h, cache2)) ∧
    (cache.lookup p = none → disk p = none →
      compute_file_hash hashFn disk cache p = ("", cache)) ∧
    (cache.lookup p = none → disk p = none → ∀ content, disk2 p = some content →
      compute_file_hash hashFn disk2 cache p =
        (hashFn content, cache ++ [(p, hashFn content)])) := by
  refine ⟨?_, ?_, ?_⟩
  · intro h cache2 hcall hne disk3
    unfold compute_file_hash at hcall ⊢
    cases hq : cache.lookup p with
    | some v =>
      rw [hq] at hcall
      simp only [Prod.mk.injEq] at hcall
      rw [← hcall.2, hq, hcall.1]
    | none =>
      rw [hq] at hcall
      cases hd : disk p with
      | none =>
        rw [hd] at hcall
        simp only [Prod.mk.injEq] at hcall
        exact absurd hcall.1.symm hne
      | some content =>
        rw [hd] at hcall
        simp only [Prod.mk.injEq] at hcall
        have hlook : cache2.lookup p = some h := by
          rw [← hcall.2, lookup_append_of_none hq, List.lookup_cons]
          simp [hcall.1]
        rw [hlook]
  · intro hq hd
    unfold compute_file_hash
    rw [hq, hd]
  · intro hq _ content hd2
    unfold compute_file_hash
    rw [hq, hd2]

/-- Witness for C10 at concrete inputs: a failed read caches nothing; a
successful read caches the digest; the cached digest is then returned even
against a disk whose bytes have changed. -/
theorem compute_file_hash_memoization_witness :
    (compute_file_hash (fun _ => "h") (fun _ => none) [] "a" = ("", [])) ∧
    (compute_file_hash (fun _ => "h") (fun _ => some [1]) [] "a" = ("h", [("a", "h")])) ∧
    (compute_file_hash (fun _ => "h") (fun _ => some [2]) [("a", "h")] "a" =
      ("h", [("a", "h")])) :=
  ⟨(compute_file_hash_memoization (fun _ => "h") (fun _ => none) (fun _ => none) [] "a").2.1
      (by simp [List.lookup]) rfl,
   (compute_file_hash_memoization (fun _ => "h") (fun _ => none) (fun _ => some [1]) []
      "a").2.2 (by simp [List.lookup]) rfl [1] rfl,
   (compute_file_hash_memoization (fun _ => "h") (fun _ => some [1]) (fun _ => some [1]) []
      "a").1 "h" [("a", "h")] rfl (by decide) (fun _ => some [2])⟩

/-! ## Helper lemmas: the deletion execution loop -/

theorem deleteOnePath_preserve {size : Int} {newest : Nat} {s : DelState} {ip : Nat × String}
    {q : String} (hne : ip.1 ≠ newest → ip.2 ≠ q) :
    (q ∈ s.fs.files → q ∈ (deleteOnePath size newest s ip).fs.files) ∧
    (q ∈ (deleteOnePath size newest s ip).deletedFiles → q ∈ s.deletedFiles) := by
  unfold deleteOnePath
  by_cases h1 : ip.1 = newest
  · rw [if_pos h1]
    exact ⟨id, id⟩
  · rw [if_neg h1]
    have hq : ip.2 ≠ q := hne h1
    cases hex : s.fs.pathExists ip.2 with
    | false =>
      simp only [Bool.not_false, if_true]
      exact ⟨id, id⟩
    | true =>
      simp only [Bool.not_true, Bool.false_eq_true, if_false]
      by_cases hden : s.fs.denied.contains ip.2 = true
      · rw [if_pos hden]
        exact ⟨id, id⟩
      · rw [if_neg hden]
        constructor
        · intro hmem
          simp only [FS.removeFile, List.mem_filter]
          exact ⟨hmem, by simp [Ne.symm hq]⟩
        · intro hmem
          rcases List.mem_append.mp hmem with hc | hc
          · exact hc
          · exact absurd (List.mem_singleton.mp hc) (Ne.symm hq)

theorem deletePaths_preserve (size : Int) (newest : Nat) (q : String) :
    ∀ (ips : List (Nat × String)) (s : DelState),
      (∀ ip ∈ ips, ip.1 ≠ newest → ip.2 ≠ q) →
      (q ∈ s.fs.files → q ∈ (deletePaths size newest ips s).fs.files) ∧
      (q ∈ (deletePaths size newest ips s).deletedFiles → q ∈ s.deletedFiles)
  | [], _, _ => ⟨id, id⟩
  | ip :: rest, s, hne => by
    unfold deletePaths
    have hstep := @deleteOnePath_preserve size newest s ip q (hne ip (List.mem_cons_self _ _))
    have hrest := deletePaths_preserve size newest q rest (deleteOnePath size newest s ip)
      (fun ip2 h2 => hne ip2 (List.mem_cons_of_mem _ h2))
    exact ⟨fun hq => hrest.1 (hstep.1 hq), fun hq => hstep.2 (hrest.2 hq)⟩

theorem deleteGroup_preserve {q : String} (s : DelState) (ig : Nat × DupRecord)
    (hne : ∀ ip ∈ enumFrom 0 ig.2.paths, ip.1 ≠ ig.2.newest_index → ip.2 ≠ q) :
    (q ∈ s.fs.files → q ∈ (deleteGroup s ig).fs.files) ∧
    (q ∈ (deleteGroup s ig).deletedFiles → q ∈ s.deletedFiles) := by
  unfold deleteGroup
  exact deletePaths_preserve ig.2.size_bytes ig.2.newest_index q (enumFrom 0 ig.2.paths)
    { s with
      log := s.log ++
        [LogEntry.processingGroup ig.1 (fullFilename ig.2.filename ig.2.extension),
         LogEntry.keeping (ig.2.paths.getD ig.2.newest_index "")] } hne

theorem deleteGroups_preserve {q : String} :
    ∀ (igs : List (Nat × DupRecord)) (s : DelState),
      (∀ ig ∈ igs, ∀ ip ∈ enumFrom 0 ig.2.paths, ip.1 ≠ ig.2.newest_index → ip.2 ≠ q) →
      (q ∈ s.fs.files → q ∈ (deleteGroups igs s).fs.files) ∧
      (q ∈ (deleteGroups igs s).deletedFiles → q ∈ s.deletedFiles)
  | [], _, _ => ⟨id, id⟩
  | ig :: rest, s, hne => by
    unfold deleteGroups
    have hstep := deleteGroup_preserve (q := q) s ig (hne ig (List.mem_cons_self _ _))
    have hrest := deleteGroups_preserve rest (deleteGroup s ig)
      (fun ig2 h2 => hne ig2 (List.mem_cons_of_mem _ h2))
    exact ⟨fun hq => hrest.1 (hstep.1 hq), fun hq => hstep.2 (hrest.2 hq)⟩

theorem deleteOnePath_sound {size : Int} {newest : Nat} {s : DelState} {ip : Nat × String}
    {q : String} (hq : q ∈ (deleteOnePath size newest s ip).deletedFiles) :
    q ∈ s.deletedFiles ∨ (ip.1 ≠ newest ∧ ip.2 = q) := by
  unfold deleteOnePath at hq
  by_cases h1 : ip.1 = newest
  · rw [if_pos h1] at hq
    exact Or.inl hq
  · rw [if_neg h1] at hq
    cases hex : s.fs.pathExists ip.2 with
    | false =>
      rw [hex] at hq
      simp only [Bool.not_false, if_true] at hq
      exact Or.inl hq
    | true =>
      rw [hex] at hq
      simp only [Bool.not_true, Bool.false_eq_true, if_false] at hq
      by_cases hden : s.fs.denied.contains ip.2 = true
      · rw [if_pos hden] at hq
        exact Or.inl hq
      · rw [if_neg hden] at hq
        rcases List.mem_append.mp hq with hc | hc
        · exact Or.inl hc
        · exact Or.inr ⟨h1, (List.mem_singleton.mp hc).symm⟩

theorem deletePaths_sound (size : Int) (newest : Nat) (q : String) :
    ∀ (ips : List (Nat × String)) (s : DelState),
      q ∈ (deletePaths size newest ips s).deletedFiles →
      q ∈ s.deletedFiles ∨ ∃ ip ∈ ips, ip.1 ≠ newest ∧ ip.2 = q
  | [], _, hq => Or.inl hq
  | ip :: rest, s, hq => by
    unfold deletePaths at hq
    rcases deletePaths_sound size newest q rest _ hq with hc | hc
    · rcases deleteOnePath_sound hc with hc2 | hc2
      · exact Or.inl hc2
      · exact Or.inr ⟨ip, List.mem_cons_self _ _, hc2⟩
    · rcases hc with ⟨ip2, hmem, hrest⟩
      exact Or.inr ⟨ip2, List.mem_cons_of_mem _ hmem, hrest⟩

theorem mem_nonKeepers_iff {g : DupRecord} {q : String} :
    q ∈ nonKeepers g ↔ ∃ ip ∈ enumFrom 0 g.paths, ip.1 ≠ g.newest_index ∧ ip.2 = q := by
  unfold nonKeepers
  constructor
  · intro hq
    rcases List.mem_map.mp hq with ⟨ip, hip, hip2⟩
    have hmem := List.mem_of_mem_filter hip
    have hcond := List.of_mem_filter hip
    exact ⟨ip, hmem, by simpa using hcond, hip2⟩
  · rintro ⟨ip, hmem, hcond, hip2⟩
    refine List.mem_map.mpr ⟨ip, ?_, hip2⟩
    refine List.mem_filter.mpr ⟨hmem, ?_⟩
    simpa using hcond

theorem deleteGroups_sound {q : String} :
    ∀ (igs : List (Nat × DupRecord)) (s : DelState),
      q ∈ (deleteGroups igs s).deletedFiles →
      q ∈ s.deletedFiles ∨ ∃ ig ∈ igs, q ∈ nonKeepers ig.2
  | [], _, hq => Or.inl hq
  | ig :: rest, s, hq => by
    unfold deleteGroups at hq
    rcases deleteGroups_sound rest _ hq with hc | hc
    · unfold deleteGroup at hc
      rcases deletePaths_sound ig.2.size_bytes ig.2.newest_index q _ _ hc with hc2 | hc2
      · exact Or.inl hc2
      · rcases hc2 with ⟨ip, hmem, hcond, hip2⟩
        exact Or.inr ⟨ig, List.mem_cons_self _ _,
          mem_nonKeepers_iff.mpr ⟨ip, hmem, hcond, hip2⟩⟩
    · rcases hc with ⟨ig2, hmem, hrest⟩
      exact Or.inr ⟨ig2, List.mem_cons_of_mem _ hmem, hrest⟩

theorem deleteOnePath_deleted_mono {size : Int} {newest : Nat} {s : DelState}
    {ip : Nat × String} {q : String} (hq : q ∈ s.deletedFiles) :
    q ∈ (deleteOnePath size newest s ip).deletedFiles := by
  unfold deleteOnePath
  by_cases h1 : ip.1 = newest
  · rw [if_pos h1]; exact hq
  · rw [if_neg h1]
    cases hex : s.fs.pathExists ip.2 with
    | false =>
      simp only [Bool.not_false, if_true]
      exact hq
    | true =>
      simp only [Bool.not_true, Bool.false_eq_true, if_false]
      by_cases hden : s.fs.denied.contains ip.2 = true
      · rw [if_pos hden]; exact hq
      · rw [if_neg hden]
        exact List.mem_append_left _ hq

theorem deletePaths_deleted_mono (size : Int) (newest : Nat) (q : String) :
    ∀ (ips : List (Nat × String)) (s : DelState), q ∈ s.deletedFiles →
      q ∈ (deletePaths size newest ips s).deletedFiles
  | [], _, hq => hq
  | ip :: rest, s, hq =>
    deletePaths_deleted_mono size newest q rest _ (deleteOnePath_deleted_mono hq)

theorem deleteGroups_deleted_mono (q : String) :
    ∀ (igs : List (Nat × DupRecord)) (s : DelState), q ∈ s.deletedFiles →
      q ∈ (deleteGroups igs s).deletedFiles
  | [], _, hq => hq
  | ig :: rest, s, hq => by
    unfold deleteGroups deleteGroup
    exact deleteGroups_deleted_mono q rest _
      (deletePaths_deleted_mono ig.2.size_bytes ig.2.newest_index q _ _ hq)

theorem contains_true_iff {l : List String} {a : String} : l.contains a = true ↔ a ∈ l := by
  rw [List.contains_iff_exists_mem_beq]
  constructor
  · rintro ⟨x, hx, hbeq⟩
    rw [beq_iff_eq.mp hbeq]
    exact hx
  · intro h
    exact ⟨a, h, by simp⟩

theorem deleteOnePath_complete {size : Int} {newest : Nat} {s : DelState} {ip : Nat × String}
    (fs0files : List String) (hden : s.fs.denied = [])
    (hphi : ∀ q ∈ fs0files, q ∈ s.fs.files ∨ q ∈ s.deletedFiles) :
    ((deleteOnePath size newest s ip).fs.denied = [] ∧
     (∀ q ∈ fs0files, q ∈ (deleteOnePath size newest s ip).fs.files ∨
       q ∈ (deleteOnePath size newest s ip).deletedFiles)) ∧
    (ip.1 ≠ newest → ip.2 ∈ fs0files →
      ip.2 ∈ (deleteOnePath size newest s ip).deletedFiles) := by
  unfold deleteOnePath
  by_cases h1 : ip.1 = newest
  · rw [if_pos h1]
    exact ⟨⟨hden, hphi⟩, fun hne _ => absurd h1 hne⟩
  · rw [if_neg h1]
    cases hex : s.fs.pathExists ip.2 with
    | false =>
      simp only [Bool.not_false, if_true]
      refine ⟨⟨hden, hphi⟩, ?_⟩
      intro _ hin
      rcases hphi ip.2 hin with hc | hc
      · unfold FS.pathExists at hex
        rw [contains_true_iff.mpr hc] at hex
        exact absurd hex (by simp)
      · exact hc
    | true =>
      simp only [Bool.not_true, Bool.false_eq_true, if_false]
      by_cases hdenc : s.fs.denied.contains ip.2 = true
      · rw [hden] at hdenc
        simp at hdenc
      · rw [if_neg hdenc]
        refine ⟨⟨by simp [FS.removeFile, hden], ?_⟩, ?_⟩
        · intro q hq
          by_cases hqp : q = ip.2
          · exact Or.inr (List.mem_append_right _ (hqp ▸ List.mem_singleton_self _))
          · rcases hphi q hq with hc | hc
            · refine Or.inl ?_
              simp only [FS.removeFile, List.mem_filter]
              exact ⟨hc, by simp [hqp]⟩
            · exact Or.inr (List.mem_append_left _ hc)
        · intro _ _
          exact List.mem_append_right _ (List.mem_singleton_self _)

theorem deletePaths_complete (size : Int) (newest : Nat) (fs0files : List String) :
    ∀ (ips : List (Nat × String)) (s : DelState), s.fs.denied = [] →
      (∀ q ∈ fs0files, q ∈ s.fs.files ∨ q ∈ s.deletedFiles) →
      ((deletePaths size newest ips s).fs.denied = [] ∧
       (∀ q ∈ fs0files, q ∈ (deletePaths size newest ips s).fs.files ∨
         q ∈ (deletePaths size newest ips s).deletedFiles)) ∧
      (∀ ip ∈ ips, ip.1 ≠ newest → ip.2 ∈ fs0files →
        ip.2 ∈ (deletePaths size newest ips s).deletedFiles)
  | [], _, hden, hphi => ⟨⟨hden, hphi⟩, by simp⟩
  | ip :: rest, s, hden, hphi => by
    unfold deletePaths
    have hstep := @deleteOnePath_complete size newest s ip fs0files hden hphi
    have hrest := deletePaths_complete size newest fs0files rest _ hstep.1.1 hstep.1.2
    refine ⟨hrest.1, ?_⟩
    intro ip2 hip2 hne hin
    rcases List.mem_cons.mp hip2 with hc | hc
    · subst hc
      exact deletePaths_deleted_mono size newest ip2.2 rest _ (hstep.2 hne hin)
    · exact hrest.2 ip2 hc hne hin

theorem nonKeepers_subset_paths {g : DupRecord} {q : String} (hq : q ∈ nonKeepers g) :
    q ∈ g.paths := by
  rcases mem_nonKeepers_iff.mp hq with ⟨ip, hmem, _, hip2⟩
  rcases mem_enumFrom hmem with ⟨j, hj, _, hget⟩
  rw [← hip2, ← hget]
  exact List.get_mem _ _ _

theorem deleteGroups_complete (fs0files : List String) :
    ∀ (igs : List (Nat × DupRecord)) (s : DelState), s.fs.denied = [] →
      (∀ q ∈ fs0files, q ∈ s.fs.files ∨ q ∈ s.deletedFiles) →
      ((deleteGroups igs s).fs.denied = [] ∧
       (∀ q ∈ fs0files, q ∈ (deleteGroups igs s).fs.files ∨
         q ∈ (deleteGroups igs s).deletedFiles)) ∧
      (∀ ig ∈ igs, ∀ q ∈ nonKeepers ig.2, q ∈ fs0files →
        q ∈ (deleteGroups igs s).deletedFiles)
  | [], _, hden, hphi => ⟨⟨hden, hphi⟩, by simp⟩
  | ig :: rest, s, hden, hphi => by
    unfold deleteGroups
    have hstep := deletePaths_complete ig.2.size_bytes ig.2.newest_index fs0files
      (enumFrom 0 ig.2.paths)
      { s with
        log := s.log ++
          [LogEntry.processingGroup ig.1 (fullFilename ig.2.filename ig.2.extension),
           LogEntry.keeping (ig.2.paths.getD ig.2.newest_index "")] } hden hphi
    have hrest := deleteGroups_complete fs0files rest (deleteGroup s ig)
      hstep.1.1 hstep.1.2
    refine ⟨hrest.1, ?_⟩
    intro ig2 hig2 q hq hin
    rcases List.mem_cons.mp hig2 with hc | hc
    · subst hc
      rcases mem_nonKeepers_iff.mp hq with ⟨ip, hmem, hne, hip2⟩
      have := hstep.2 ip hmem hne (hip2.symm ▸ hin)
      exact deleteGroups_deleted_mono q rest _ (hip2 ▸ this)
    · exact hrest.2 ig2 hc q hq hin

/-! ## Helper lemmas: the preview log lists exactly the non-keepers -/

theorem enumFrom_snd_mem {l : List α} {n : Nat} {ig : Nat × α} (h : ig ∈ enumFrom n l) :
    ig.2 ∈ l := by
  rcases mem_enumFrom (l := l) (n := n) (i := ig.1) (p := ig.2) h with ⟨j, hj, _, hget⟩
  rw [← hget]
  exact List.get_mem _ _ _

theorem mem_enumFrom_of_mem {l : List α} {a : α} (h : a ∈ l) (n : Nat) :
    ∃ i, (i, a) ∈ enumFrom n l := by
  rcases List.mem_iff_get.mp h with ⟨j, hget⟩
  exact ⟨n + j.1, hget ▸ enumFrom_mem_of_get l n j.1 j.2⟩

theorem enumFrom_flatMap (f : DupRecord → List String) :
    ∀ (l : List DupRecord) (n : Nat),
      (enumFrom n l).flatMap (fun ig => f ig.2) = l.flatMap f
  | [], _ => rfl
  | a :: l, n => by
    simp only [enumFrom, List.flatMap_cons]
    rw [enumFrom_flatMap f l (n + 1)]

theorem listedDeletions_append (l1 l2 : List LogEntry) :
    listedDeletions (l1 ++ l2) = listedDeletions l1 ++ listedDeletions l2 :=
  List.filterMap_append l1 l2 _

theorem listedDeletions_itemBlock :
    ∀ l : List (String × String),
      listedDeletions (l.flatMap (fun pd =>
        LogEntry.previewDeleteItem pd.1 ::
          (if pd.2 ≠ "" then [LogEntry.modifiedDate pd.2] else []))) = l.map Prod.fst
  | [] => rfl
  | pd :: rest => by
    simp only [List.flatMap_cons]
    unfold listedDeletions
    rw [List.filterMap_append]
    show (listedDeletions (LogEntry.previewDeleteItem pd.1 ::
      (if pd.2 ≠ "" then [LogEntry.modifiedDate pd.2] else []))) ++ _ = _
    have hhd : listedDeletions (LogEntry.previewDeleteItem pd.1 ::
        (if pd.2 ≠ "" then [LogEntry.modifiedDate pd.2] else [])) = [pd.1] := by
      unfold listedDeletions
      rw [List.filterMap_cons]
      by_cases hd : pd.2 ≠ ""
      · rw [if_pos hd]
        rfl
      · rw [if_neg hd]
        rfl
    rw [hhd]
    rw [show List.filterMap _ (rest.flatMap fun pd =>
      LogEntry.previewDeleteItem pd.1 ::
        (if pd.2 ≠ "" then [LogEntry.modifiedDate pd.2] else [])) =
      listedDeletions (rest.flatMap fun pd =>
        LogEntry.previewDeleteItem pd.1 ::
          (if pd.2 ≠ "" then [LogEntry.modifiedDate pd.2] else [])) from rfl]
    rw [listedDeletions_itemBlock rest]
    rfl

theorem previewGroup_listed (s : PreviewState) (ig : Nat × DupRecord) :
    listedDeletions (previewGroup s ig).log = listedDeletions s.log ++ nonKeepers ig.2 := by
  simp only [previewGroup]
  rw [listedDeletions_append, listedDeletions_append]
  have hheader : listedDeletions
      ([LogEntry.groupHeader ig.1 (fullFilename ig.2.filename ig.2.extension) ig.2.size_bytes,
        LogEntry.keepingNewest (ig.2.paths.getD ig.2.newest_index "")] ++
       (if ig.2.newest_index < ig.2.dates.length then
         [LogEntry.modifiedDate (ig.2.dates.getD ig.2.newest_index "")] else [])) = [] := by
    rw [listedDeletions_append]
    by_cases hlt : ig.2.newest_index < ig.2.dates.length
    · rw [if_pos hlt]
      rfl
    · rw [if_neg hlt]
      rfl
  rw [hheader]
  by_cases hemp : (((enumFrom 0 ig.2.paths).filter
      (fun ip => ip.1 ≠ ig.2.newest_index)).map
      (fun ip => (ip.2, ig.2.dates.getD ip.1 ""))).isEmpty
  · rw [if_pos hemp]
    have hfil : ((enumFrom 0 ig.2.paths).filter (fun ip => ip.1 ≠ ig.2.newest_index)) = [] := by
      have := List.isEmpty_iff.mp hemp
      exact List.map_eq_nil.mp this
    unfold nonKeepers
    rw [hfil]
    simp [listedDeletions]
  · rw [if_neg hemp]
    show _ ++ listedDeletions (LogEntry.deletingCount _ :: _) = _
    have : listedDeletions (LogEntry.deletingCount
        (((enumFrom 0 ig.2.paths).filter (fun ip => ip.1 ≠ ig.2.newest_index)).map
          (fun ip => (ip.2, ig.2.dates.getD ip.1 ""))).length ::
        ((((enumFrom 0 ig.2.paths).filter (fun ip => ip.1 ≠ ig.2.newest_index)).map
          (fun ip => (ip.2, ig.2.dates.getD ip.1 ""))).flatMap (fun pd =>
            LogEntry.previewDeleteItem pd.1 ::
              (if pd.2 ≠ "" then [LogEntry.modifiedDate pd.2] else [])))) =
        nonKeepers ig.2 := by
      unfold listedDeletions
      rw [List.filterMap_cons]
      show listedDeletions _ = _
      rw [listedDeletions_itemBlock]
      rw [List.map_map]
      rfl
    rw [this]
    simp

theorem foldl_previewGroup_listed :
    ∀ (igs : List (Nat × DupRecord)) (s : PreviewState),
      listedDeletions ((igs.foldl previewGroup s).log) =
        listedDeletions s.log ++ igs.flatMap (fun ig => nonKeepers ig.2)
  | [], s => by simp
  | ig :: rest, s => by
    rw [List.foldl_cons, foldl_previewGroup_listed rest _, previewGroup_listed,
      List.flatMap_cons, List.append_assoc]

theorem preview_deletions_listed (doc : List DupRecord) :
    listedDeletions (preview_deletions doc).log = nonKeepersList doc := by
  simp only [preview_deletions]
  rw [listedDeletions_append, foldl_previewGroup_listed]
  show ([] ++ _) ++ _ = _
  rw [List.nil_append, enumFrom_flatMap]
  show nonKeepersList doc ++ [] = _
  rw [List.append_nil]

theorem getD_eq_get_of_lt {l : List String} {n : Nat} (h : n < l.length) (d : String) :
    l.getD n d = l.get ⟨n, h⟩ := by
  rw [List.getD_eq_getElem?_getD, List.getElem?_eq_getElem h]
  rfl

/-! ## Claim theorems: the deleter -/

/-- C7.  A dry-run deletion performs zero filesystem mutations and removes
nothing; its log is non-empty and the paths it lists for deletion are
exactly the non-keeper paths of every record — which are exactly the paths
an execute run over the same document would remove (shown for a
filesystem on which every listed path exists and no removal is denied). -/
theorem dry_run_exact_preview (doc : List DupRecord) (fs : FS) (confirm : Bool)
    (response : String) :
    (delete_duplicates doc true confirm response fs).fs = fs ∧
    (delete_duplicates doc true confirm response fs).files = [] ∧
    (delete_duplicates doc true confirm response fs).log ≠ [] ∧
    listedDeletions (delete_duplicates doc true confirm response fs).log =
      nonKeepersList doc ∧
    ((∀ r ∈ doc, ∀ q ∈ r.paths, q ∈ fs.files) → fs.denied = [] →
      ∀ p, p ∈ (delete_duplicates doc false false response fs).files ↔
        p ∈ nonKeepersList doc) := by
  refine ⟨rfl, rfl, List.cons_ne_nil _ _, ?_, ?_⟩
  · show listedDeletions (LogEntry.dryRunNotice :: (preview_deletions doc).log) = _
    unfold listedDeletions
    rw [List.filterMap_cons]
    exact preview_deletions_listed doc
  · intro hall hden p
    show p ∈ (executeDeletions doc fs).deletedFiles ↔ _
    have hfsdel : (executeDeletions doc fs).deletedFiles =
        (deleteGroups (enumFrom 1 doc)
          ⟨fs, 0, 0, [], [],
           [LogEntry.sep, LogEntry.executingTitle, LogEntry.sep]⟩).deletedFiles := rfl
    rw [hfsdel]
    constructor
    · intro hmem
      rcases deleteGroups_sound (q := p) (enumFrom 1 doc) _ hmem with hc | hc
      · exact absurd hc (List.not_mem_nil p)
      · rcases hc with ⟨ig, hig, hp⟩
        exact List.mem_flatMap.mpr ⟨ig.2, enumFrom_snd_mem hig, hp⟩
    · intro hmem
      rcases List.mem_flatMap.mp hmem with ⟨r, hr, hp⟩
      rcases mem_enumFrom_of_mem hr 1 with ⟨i, hir⟩
      have hin : p ∈ fs.files := hall r hr p (nonKeepers_subset_paths hp)
      have hcomp := deleteGroups_complete fs.files (enumFrom 1 doc)
        ⟨fs, 0, 0, [], [], [LogEntry.sep, LogEntry.executingTitle, LogEntry.sep]⟩
        hden (fun q hq => Or.inl hq)
      exact hcomp.2 (i, r) hir p hp hin

/-- Witness for C7 at a concrete input: one record keeping `"b"` on a
filesystem holding both paths; `"a"` is listed and is exactly what an
execute run removes. -/
theorem dry_run_exact_preview_witness :
    (delete_duplicates [⟨"f", "", 1, 1, 2, ["a", "b"], ["", ""], 1, 1⟩] true false "x"
        ⟨["a", "b"], [], []⟩).fs = ⟨["a", "b"], [], []⟩ ∧
    (delete_duplicates [⟨"f", "", 1, 1, 2, ["a", "b"], ["", ""], 1, 1⟩] true false "x"
        ⟨["a", "b"], [], []⟩).files = [] ∧
    listedDeletions (delete_duplicates [⟨"f", "", 1, 1, 2, ["a", "b"], ["", ""], 1, 1⟩]
        true false "x" ⟨["a", "b"], [], []⟩).log =
      nonKeepersList [⟨"f", "", 1, 1, 2, ["a", "b"], ["", ""], 1, 1⟩] ∧
    ("a" ∈ (delete_duplicates [⟨"f", "", 1, 1, 2, ["a", "b"], ["", ""], 1, 1⟩] false false "x"
        ⟨["a", "b"], [], []⟩).files ↔
      "a" ∈ nonKeepersList [⟨"f", "", 1, 1, 2, ["a", "b"], ["", ""], 1, 1⟩]) :=
  ⟨(dry_run_exact_preview [⟨"f", "", 1, 1, 2, ["a", "b"], ["", ""], 1, 1⟩]
      ⟨["a", "b"], [], []⟩ false "x").1,
   (dry_run_exact_preview [⟨"f", "", 1, 1, 2, ["a", "b"], ["", ""], 1, 1⟩]
      ⟨["a", "b"], [], []⟩ false "x").2.1,
   (dry_run_exact_preview [⟨"f", "", 1, 1, 2, ["a", "b"], ["", ""], 1, 1⟩]
      ⟨["a", "b"], [], []⟩ false "x").2.2.2.1,
   (dry_run_exact_preview [⟨"f", "", 1, 1, 2, ["a", "b"], ["", ""], 1, 1⟩]
      ⟨["a", "b"], [], []⟩ false "x").2.2.2.2 (by decide) rfl "a"⟩

/-- C1, counterexample to the claim as stated: two records that each list
distinct paths, but where the second record lists the first record's
keeper `"a"` at a non-keeper position.  The execute run removes `"a"`, so
the designated keeper of the first record is not untouched at the end of
the run. -/
theorem keeper_cross_record_counterexample :
    ((⟨"f", "", 1, 1, 2, ["a", "b"], ["", ""], 0, 1⟩ : DupRecord).paths.Nodup ∧
     (⟨"f", "", 1, 2, 2, ["a", "c"], ["", ""], 1, 1⟩ : DupRecord).paths.Nodup) ∧
    keeperOf (⟨"f", "", 1, 1, 2, ["a", "b"], ["", ""], 0, 1⟩ : DupRecord) = "a" ∧
    "a" ∈ (FS.mk ["a", "b", "c"] [] []).files ∧
    "a" ∈ (delete_duplicates
      [⟨"f", "", 1, 1, 2, ["a", "b"], ["", ""], 0, 1⟩,
       ⟨"f", "", 1, 2, 2, ["a", "c"], ["", ""], 1, 1⟩] false false "x"
      (FS.mk ["a", "b", "c"] [] [])).files ∧
    "a" ∉ (delete_duplicates
      [⟨"f", "", 1, 1, 2, ["a", "b"], ["", ""], 0, 1⟩,
       ⟨"f", "", 1, 2, 2, ["a", "c"], ["", ""], 1, 1⟩] false false "x"
      (FS.mk ["a", "b", "c"] [] [])).fs.files := by
  decide

/-- C1 (amended: additionally no two records of the document share a
path, which holds for every document the classifier persists since the
candidate groups of distinct records are disjoint).  In every execute-mode
deletion run, a record's `paths[newest_index]` is never passed to file
removal — every removed path sits at an index different from its record's
`newest_index` — so the designated keeper file is untouched at the end of
the run. -/
theorem keeper_never_removed (doc : List DupRecord) (confirm : Bool) (response : String)
    (fs : FS) (r : DupRecord) (hr : r ∈ doc)
    (hval : r.newest_index < r.paths.length)
    (hnodup : ∀ g ∈ doc, g.paths.Nodup)
    (hdisj : doc.Pairwise (fun g1 g2 => ∀ p ∈ g1.paths, p ∉ g2.paths)) :
    keeperOf r ∉ (delete_duplicates doc false confirm response fs).files ∧
    (keeperOf r ∈ fs.files →
      keeperOf r ∈ (delete_duplicates doc false confirm response fs).fs.files) := by
  have hkeep_get : keeperOf r = r.paths.get ⟨r.newest_index, hval⟩ :=
    getD_eq_get_of_lt hval ""
  have hkeep_mem : keeperOf r ∈ r.paths := by
    rw [hkeep_get]
    exact List.get_mem _ _ _
  have hsym : Symmetric (fun g1 g2 : DupRecord => ∀ p ∈ g1.paths, p ∉ g2.paths) := by
    intro g1 g2 h12 q hq2 hq1
    exact h12 q hq1 hq2
  have hcond : ∀ ig ∈ enumFrom 1 doc, ∀ ip ∈ enumFrom 0 ig.2.paths,
      ip.1 ≠ ig.2.newest_index → ip.2 ≠ keeperOf r := by
    intro ig hig ip hip hne heq
    have hgmem : ig.2 ∈ doc := enumFrom_snd_mem hig
    by_cases hgr : ig.2 = r
    · rw [hgr] at hip hne
      rcases mem_enumFrom hip with ⟨j, hj, hi0, hget⟩
      have hkeq : r.paths.get ⟨j, hj⟩ = r.paths.get ⟨r.newest_index, hval⟩ := by
        rw [hget, heq, hkeep_get]
      have hji : j = r.newest_index :=
        congrArg Fin.val ((hnodup r hr).get_inj_iff.mp hkeq)
      exact hne (by omega)
    · have hR := hdisj.forall hsym hgmem hr hgr
      have hip2 : ip.2 ∈ ig.2.paths := by
        rcases mem_enumFrom hip with ⟨j, hj, _, hget⟩
        rw [← hget]
        exact List.get_mem _ _ _
      exact hR ip.2 hip2 (heq ▸ hkeep_mem)
  have hpres := deleteGroups_preserve (q := keeperOf r) (enumFrom 1 doc)
    ⟨fs, 0, 0, [], [], [LogEntry.sep, LogEntry.executingTitle, LogEntry.sep]⟩ hcond
  by_cases hgate : (confirm && !pyAffirmative response) = true
  · constructor
    · intro hmem
      simp only [delete_duplicates, Bool.false_eq_true, if_false, hgate, if_true] at hmem
      exact absurd hmem (List.not_mem_nil _)
    · intro hmem
      simp only [delete_duplicates, Bool.false_eq_true, if_false, hgate, if_true]
      exact hmem
  · have hfacts : (delete_duplicates doc false confirm response fs).files =
        (executeDeletions doc fs).deletedFiles ∧
        (delete_duplicates doc false confirm response fs).fs =
          (executeDeletions doc fs).fs := by
      unfold delete_duplicates
      rw [if_neg Bool.false_ne_true, if_neg hgate]
      by_cases hc : confirm = true
      · rw [if_pos hc]
        exact ⟨rfl, rfl⟩
      · rw [if_neg hc]
        exact ⟨rfl, rfl⟩
    constructor
    · rw [hfacts.1]
      intro hmem
      exact absurd (hpres.2 hmem) (List.not_mem_nil _)
    · rw [hfacts.2]
      intro hmem
      exact hpres.1 hmem

/-- Witness for the amended C1 at a concrete input: two disjoint records;
the first record's keeper `"b"` is neither removed nor missing from the
final filesystem. -/
theorem keeper_never_removed_witness :
    keeperOf (⟨"f", "", 1, 1, 2, ["a", "b"], ["", ""], 1, 1⟩ : DupRecord) ∉
      (delete_duplicates
        [⟨"f", "", 1, 1, 2, ["a", "b"], ["", ""], 1, 1⟩,
         ⟨"g", "", 1, 1, 2, ["c", "d"], ["", ""], 0, 1⟩] false false "x"
        ⟨["a", "b", "c", "d"], [], []⟩).files ∧
    (keeperOf (⟨"f", "", 1, 1, 2, ["a", "b"], ["", ""], 1, 1⟩ : DupRecord) ∈
        (FS.mk ["a", "b", "c", "d"] [] []).files →
      keeperOf (⟨"f", "", 1, 1, 2, ["a", "b"], ["", ""], 1, 1⟩ : DupRecord) ∈
        (delete_duplicates
          [⟨"f", "", 1, 1, 2, ["a", "b"], ["", ""], 1, 1⟩,
           ⟨"g", "", 1, 1, 2, ["c", "d"], ["", ""], 0, 1⟩] false false "x"
          ⟨["a", "b", "c", "d"], [], []⟩).fs.files) :=
  keeper_never_removed
    [⟨"f", "", 1, 1, 2, ["a", "b"], ["", ""], 1, 1⟩,
     ⟨"g", "", 1, 1, 2, ["c", "d"], ["", ""], 0, 1⟩] false "x"
    ⟨["a", "b", "c", "d"], [], []⟩ ⟨"f", "", 1, 1, 2, ["a", "b"], ["", ""], 1, 1⟩
    (by decide) (by decide) (by decide) (by decide)

end HdOrg
